import Mathlib

/-!
Verification of the debug-logging module `src/clientLogger.ts` of faunadb-js.

The module renders a `RequestResult` record into a multi-line log string
(`showRequestResult`), wraps a user sink into an observer callback (`logger`),
and uses three helpers: `_queryString` (query-string reconstruction),
`_indent` (two-space indentation of interior lines), and `_showJSON`
(pretty JSON via `json.toJSON(object, true)` from the sibling module
`./_json`, composed with `_indent`).

Strings are modelled as `List Char`.  JavaScript's
`str.split('\n').join('\n' + indentStr)` is modelled literally as
split (`splitLines`) followed by join (`List.intercalate`); the
equivalence with the direct character-level recursion is proved
(`_indent_eq_indentCh`).  The JSON serializer `json.toJSON` is not part
of src/, so it is modelled from the spec (see `toJSON` below).
-/

/-- Character classifier for the whitespace the JSON pretty-printer emits
between tokens (space and newline). -/
def isWsCh (c : Char) : Bool := c = ' ' || c = '\n'

/-- Decimal digit test, by explicit enumeration of the ten digit characters. -/
def isDigitCh (c : Char) : Bool :=
  c = '0' || c = '1' || c = '2' || c = '3' || c = '4' || c = '5' || c = '6' || c = '7' || c = '8' || c = '9'

/-- The decimal digit character for a value below ten (clamped to '9' above). -/
def digitChar (d : Nat) : Char :=
  if d = 0 then '0' else if d = 1 then '1' else if d = 2 then '2' else if d = 3 then '3'
  else if d = 4 then '4' else if d = 5 then '5' else if d = 6 then '6' else if d = 7 then '7'
  else if d = 8 then '8' else '9'

/-- Numeric value of a digit character (0 for non-digits, never used on them). -/
def digitVal (c : Char) : Nat :=
  if c = '0' then 0 else if c = '1' then 1 else if c = '2' then 2 else if c = '3' then 3
  else if c = '4' then 4 else if c = '5' then 5 else if c = '6' then 6 else if c = '7' then 7
  else if c = '8' then 8 else 9

/-- Fuel-driven decimal rendering of a natural number, most significant digit
first.  The fuel is always instantiated above the number, see `natChars`. -/
def natCharsAux : Nat → Nat → List Char
  | 0, _ => []
  | fuel + 1, n => if n < 10 then [digitChar n] else natCharsAux fuel (n / 10) ++ [digitChar (n % 10)]

/-- Decimal rendering of a natural number, as JavaScript string coercion of an
integer produces it. -/
def natChars (n : Nat) : List Char := natCharsAux (n + 1) n

/-- Decimal rendering of an integer, with a leading minus sign when negative. -/
def intChars (n : Int) : List Char :=
  if n < 0 then '-' :: natChars n.natAbs else natChars n.natAbs

/-- JSON string escaping of one character: quote, backslash and newline are
escaped, everything else is copied verbatim. -/
def escapeChar (c : Char) : List Char :=
  if c = '"' then ['\\', '"']
  else if c = '\\' then ['\\', '\\']
  else if c = '\n' then ['\\', 'n']
  else [c]

/-- JSON string escaping of a whole string body. -/
def escape : List Char → List Char
  | [] => []
  | c :: cs => escapeChar c ++ escape cs

/-- Structured JSON values: the "arbitrary structured value
(object/array/scalar/null)" of the spec's data model.  Object members keep
their insertion order, matching the source's implementation-defined but
stable iteration order. -/
inductive JsonVal where
  | null
  | bool (b : Bool)
  | num (n : Int)
  | str (s : List Char)
  | arr (xs : List JsonVal)
  | obj (kvs : List (List Char × JsonVal))

/-- Indentation of the pretty-printer: two spaces per nesting depth. -/
def pad (d : Nat) : List Char := List.replicate (2 * d) ' '

/-- The JSON literal for null. -/
def litNull : List Char := ['n', 'u', 'l', 'l']

/-- The JSON literal for true. -/
def litTrue : List Char := ['t', 'r', 'u', 'e']

/-- The JSON literal for false. -/
def litFalse : List Char := ['f', 'a', 'l', 's', 'e']

mutual
/-- Modelled from the spec: the serialization performed by
`json.toJSON(object, true)` of the module `./_json`, which is not included in
src/.  Per the spec it produces a human-readable JSON representation with
nested structures multi-line at 2-space nesting (the shape of
`JSON.stringify(v, null, 2)`); `d` is the current nesting depth. -/
def stringifyV (d : Nat) : JsonVal → List Char
  | .null => litNull
  | .bool true => litTrue
  | .bool false => litFalse
  | .num n => intChars n
  | .str s => '"' :: escape s ++ ['"']
  | .arr [] => ['[', ']']
  | .arr (x :: xs) => '[' :: '\n' :: stringifyElems d (x :: xs) ++ '\n' :: pad d ++ [']']
  | .obj [] => ['{', '}']
  | .obj (p :: ps) => '{' :: '\n' :: stringifyMembers d (p :: ps) ++ '\n' :: pad d ++ ['}']

/-- Array elements of the pretty-printer: one per line, comma separated. -/
def stringifyElems (d : Nat) : List JsonVal → List Char
  | [] => []
  | [x] => pad (d+1) ++ stringifyV (d+1) x
  | x :: y :: ys => pad (d+1) ++ stringifyV (d+1) x ++ ',' :: '\n' :: stringifyElems d (y :: ys)

/-- Object members of the pretty-printer: one per line, comma separated. -/
def stringifyMembers (d : Nat) : List (List Char × JsonVal) → List Char
  | [] => []
  | [(k, v)] => pad (d+1) ++ '"' :: escape k ++ '"' :: ':' :: ' ' :: stringifyV (d+1) v
  | (k, v) :: m :: ms =>
      pad (d+1) ++ '"' :: escape k ++ '"' :: ':' :: ' ' :: stringifyV (d+1) v ++ ',' :: '\n' :: stringifyMembers d (m :: ms)
end

mutual
/-- Structural size of a JSON value, used as induction measure and parser fuel. -/
def jsize : JsonVal → Nat
  | .null => 1
  | .bool _ => 1
  | .num _ => 1
  | .str _ => 1
  | .arr xs => 1 + lsize xs
  | .obj kvs => 1 + msize kvs

/-- Structural size of a list of JSON values. -/
def lsize : List JsonVal → Nat
  | [] => 1
  | x :: xs => 1 + jsize x + lsize xs

/-- Structural size of a list of JSON object members. -/
def msize : List (List Char × JsonVal) → Nat
  | [] => 1
  | (_, v) :: ms => 1 + jsize v + msize ms
end

/-- Failure raised by the JSON serializer on values it cannot render
(the spec's SerializationError, e.g. on circular references). -/
inductive SerializationError where
  | cyclicValue
deriving DecidableEq

/-- A value handed to the logger for serialization: either a structured JSON
value, or a self-referential object on which serialization fails. -/
inductive Value where
  | json (j : JsonVal)
  | selfRef

/-- Modelled from the spec: `json.toJSON(object, true)` of the module
`./_json`, which is not included in src/.  It pretty-prints a serializable
value (see `stringifyV`) and throws a SerializationError on self-referential
values; the throw is modelled with `Except`. -/
def toJSON : Value → Except SerializationError (List Char)
  | .json j => .ok (stringifyV 0 j)
  | .selfRef => .error .cyclicValue

/-- Split a string at every newline character, exactly as JavaScript's
`str.split('\n')`: the result always has one more element than the number of
newlines, and the empty string yields one empty line. -/
def splitLines : List Char → List (List Char)
  | [] => [[]]
  | c :: cs =>
    if c = '\n' then [] :: splitLines cs
    else
      match splitLines cs with
      | l :: ls => (c :: l) :: ls
      | [] => [[c]]

/-- The local `indentStr` of the source: two spaces. -/
def indentStr : List Char := [' ', ' ']

/-- The helper `_indent` of clientLogger.ts:
`str.split('\n').join('\n' + indentStr)`, i.e. split at newlines and rejoin
with a newline followed by two spaces. -/
def _indent (str : List Char) : List Char :=
  List.intercalate ('\n' :: indentStr) (splitLines str)

/-- Character-level form of `_indent`: insert two spaces after every newline.
Proved equal to `_indent` in `_indent_eq_indentCh`. -/
def indentCh : List Char → List Char
  | [] => []
  | c :: cs => if c = '\n' then '\n' :: ' ' :: ' ' :: indentCh cs else c :: indentCh cs

/-- Drop one two-space indentation pair from the front of a line, when
present. -/
def dropIndentPair : List Char → List Char
  | a :: b :: t => if a = ' ' ∧ b = ' ' then t else a :: b :: t
  | s => s

/-- Inverse of the indentation pass: split at newlines, drop the two
indentation spaces at the front of every line but the first, and rejoin.
Used to express the extraction step of the round-trip property. -/
def unindentChars (s : List Char) : List Char :=
  match splitLines s with
  | [] => []
  | l :: ls => List.intercalate ['\n'] (l :: ls.map dropIndentPair)

/-- Boolean test that `s` starts with the pattern `p`. -/
def beginsWith : List Char → List Char → Bool
  | [], _ => true
  | _ :: _, [] => false
  | p :: ps, s :: ss => p = s && beginsWith ps ss

/-- Number of leading space characters of a line. -/
def leadSpaces : List Char → Nat
  | [] => 0
  | c :: r => if c = ' ' then leadSpaces r + 1 else 0

/-- Characters that may legally follow a newline inside the pretty-printer's
output: the indentation space or a closing bracket at depth zero. -/
def okAfterNl (c : Char) : Bool := c = ' ' || c = ']' || c = '}'

/-- Head test for `nlOk`. -/
def headOkAfterNl : List Char → Bool
  | [] => false
  | c :: _ => okAfterNl c

/-- Invariant of serializer output: every newline is followed by a space or a
closing bracket (in particular no newline is last and none is doubled). -/
def nlOk : List Char → Bool
  | [] => true
  | c :: r => if c = '\n' then headOkAfterNl r && nlOk r else nlOk r

/-- The helper `_showJSON` of clientLogger.ts:
`_indent(json.toJSON(object, true))`, with the serializer's failure
propagating. -/
def _showJSON (object : Value) : Except SerializationError (List Char) :=
  match toJSON object with
  | .ok s => .ok ( _indent s)
  | .error e => .error e

/-- The helper `_queryString` of clientLogger.ts.  A null/absent mapping and a
mapping with zero keys give the empty suffix; otherwise the `key=value` pairs
(values verbatim, no URL-encoding) are joined with ampersands behind a
question mark.  The association list models the object in iteration order of
`Object.keys`. -/
def _queryString : Option (List (List Char × List Char)) → List Char
  | none => []
  | some query =>
    if query.length = 0 then []
    else '?' :: List.intercalate ['&'] (query.map fun kv => kv.1 ++ '=' :: kv.2)

/-- Join with ampersand, written as the spec phrases it: pairs joined by
a single `&` between consecutive pairs.  Used to state the claim about
`_queryString` against an independently written join. -/
def joinedPairs : List (List Char) → List Char
  | [] => []
  | [p] => p
  | p :: q :: ps => p ++ '&' :: joinedPairs (q :: ps)

/-- Modelled from the spec: the `RequestResult` record shape of the data
model (its class lives in `src/RequestResult`, not included in src/).
`query` is an association list or absent; `requestContent` is absent for
requests without body; `statusCode` and `timeTaken` are numbers. -/
structure RequestResult where
  method : List Char
  path : List Char
  query : Option (List (List Char × List Char))
  requestContent : Option Value
  responseHeaders : Value
  responseContent : Value
  statusCode : Nat
  timeTaken : Nat

/-- The literal label "Fauna " opening the header line. -/
def lblFauna : List Char := ['F', 'a', 'u', 'n', 'a', ' ']

/-- The literal label "  Request JSON: ". -/
def lblRequestJSON : List Char :=
  [' ', ' ', 'R', 'e', 'q', 'u', 'e', 's', 't', ' ', 'J', 'S', 'O', 'N', ':', ' ']

/-- The two-space-indented "Request JSON:" line label (no trailing space),
as the claims describe lines beginning with it. -/
def lblReqLine : List Char :=
  [' ', ' ', 'R', 'e', 'q', 'u', 'e', 's', 't', ' ', 'J', 'S', 'O', 'N', ':']

/-- The literal label "  Response headers: ". -/
def lblRespHeaders : List Char :=
  [' ', ' ', 'R', 'e', 's', 'p', 'o', 'n', 's', 'e', ' ', 'h', 'e', 'a', 'd', 'e', 'r', 's', ':', ' ']

/-- The literal label "  Response JSON: ". -/
def lblRespJSON : List Char :=
  [' ', ' ', 'R', 'e', 's', 'p', 'o', 'n', 's', 'e', ' ', 'J', 'S', 'O', 'N', ':', ' ']

/-- The literal label "  Response (". -/
def lblRespOpen : List Char :=
  [' ', ' ', 'R', 'e', 's', 'p', 'o', 'n', 's', 'e', ' ', '(']

/-- The literal label "): Network latency ". -/
def lblLatency : List Char :=
  [')', ':', ' ', 'N', 'e', 't', 'w', 'o', 'r', 'k', ' ', 'l', 'a', 't', 'e', 'n', 'c', 'y', ' ']

/-- The header line of `showRequestResult` without its trailing newline:
`'Fauna ' + method + ' /' + path + _queryString(query)`. -/
def headerChars (rr : RequestResult) : List Char :=
  lblFauna ++ rr.method ++ ' ' :: '/' :: (rr.path ++ _queryString rr.query)

/-- The optional Request JSON segment: nothing when `requestContent` is
null/absent (the source's `requestContent != null` guard), otherwise the
labelled, indented and newline-terminated JSON block. -/
def requestSeg : Option Value → Except SerializationError (List Char)
  | none => .ok []
  | some rc =>
    match _showJSON rc with
    | .ok j => .ok (lblRequestJSON ++ j ++ ['\n'])
    | .error e => .error e

/-- The function `showRequestResult` of clientLogger.ts.  The source appends
segments to a local accumulator `out` via `log`; an exception thrown by
`_showJSON` aborts the call and discards the partial accumulator, which the
`Except` sequencing models exactly.  The segments, in source order: header
line, optional Request JSON line, Response headers line, Response JSON line,
status line. -/
def showRequestResult (requestResult : RequestResult) : Except SerializationError (List Char) :=
  match requestSeg requestResult.requestContent with
  | .error e => .error e
  | .ok req =>
    match _showJSON requestResult.responseHeaders with
    | .error e => .error e
    | .ok hs =>
      match _showJSON requestResult.responseContent with
      | .error e => .error e
      | .ok js =>
        .ok (headerChars requestResult ++ '\n' ::
          (req ++ (lblRespHeaders ++ hs ++ '\n' ::
            (lblRespJSON ++ js ++ '\n' ::
              (lblRespOpen ++ natChars requestResult.statusCode ++ lblLatency ++
                natChars requestResult.timeTaken ++ ['m', 's', '\n'])))))

/-- The adapter `logger` of clientLogger.ts: the observer returned by
`logger(loggerFunction)` computes `showRequestResult(requestResult)` and
passes it to the sink; an exception from rendering propagates and the sink is
not reached. -/
def logger {α : Type} (loggerFunction : List Char → α) (requestResult : RequestResult) :
    Except SerializationError α :=
  match showRequestResult requestResult with
  | .ok s => .ok (loggerFunction s)
  | .error e => .error e

/-- Observable call trace of the sink during one observer invocation: the
list of strings passed to the sink, in order.  Rendering failure happens
before the sink is reached, so the trace is then empty. -/
def sinkCalls (requestResult : RequestResult) : List (List Char) :=
  match showRequestResult requestResult with
  | .ok s => [s]
  | .error _ => []

/-- Does a rendering result contain a line beginning with the two-space
indented "Request JSON:" label? -/
def hasReqJSONLine : Except SerializationError (List Char) → Bool
  | .ok s => (splitLines s).any fun l => beginsWith lblReqLine l
  | .error _ => false

/-- Newline-freedom of all keys and values of an optional query mapping. -/
def queryNlFree : Option (List (List Char × List Char)) → Prop
  | none => True
  | some q => ∀ kv ∈ q, '\n' ∉ kv.1 ∧ '\n' ∉ kv.2

/-- Skip the inter-token whitespace of the pretty-printer. -/
def skipWs : List Char → List Char
  | [] => []
  | c :: cs => if isWsCh c then skipWs cs else c :: cs

/-- Expect an exact sequence of characters and return the remainder. -/
def dropToken : List Char → List Char → Option (List Char)
  | [], s => some s
  | _ :: _, [] => none
  | c :: p, x :: s => if x = c then dropToken p s else none

/-- Decode one escape character of a JSON string literal. -/
def unescCh (e : Char) : Option Char :=
  if e = '"' then some '"' else if e = '\\' then some '\\' else if e = 'n' then some '\n' else none

mutual
/-- Parse the body of a JSON string literal after its opening quote, up to and
including the closing quote; returns the decoded body and the remainder. -/
def parseStrBody : List Char → Option (List Char × List Char)
  | [] => none
  | c :: r =>
    if c = '"' then some ([], r)
    else if c = '\\' then parseEsc r
    else
      match parseStrBody r with
      | none => none
      | some (t, rest) => some (c :: t, rest)

/-- Parse the character following a backslash inside a string literal. -/
def parseEsc : List Char → Option (List Char × List Char)
  | [] => none
  | e :: r2 =>
    match unescCh e with
    | none => none
    | some d =>
      match parseStrBody r2 with
      | none => none
      | some (t, rest) => some (d :: t, rest)
end

/-- Longest digit run at the front of the input. -/
def takeDigits : List Char → List Char × List Char
  | [] => ([], [])
  | c :: r => if isDigitCh c then ((takeDigits r).1.cons c, (takeDigits r).2) else ([], c :: r)

/-- Decimal value of a digit run, accumulator style. -/
def digitsToNat (acc : Nat) : List Char → Nat
  | [] => acc
  | c :: r => digitsToNat (acc * 10 + digitVal c) r

/-- Parse a nonempty digit run into a natural number. -/
def parseNatNum (s : List Char) : Option (Nat × List Char) :=
  match takeDigits s with
  | ([], _) => none
  | (ds, r) => some (digitsToNat 0 ds, r)

mutual
/-- Recursive-descent JSON value parser (fuel-driven).  Skips whitespace, then
dispatches on the first character: literals, strings, arrays, objects and
decimal integers. -/
def parseVal : Nat → List Char → Option (JsonVal × List Char)
  | 0, _ => none
  | fuel + 1, s0 =>
    match skipWs s0 with
    | [] => none
    | c :: r =>
      if c = 'n' then
        match dropToken ['u', 'l', 'l'] r with
        | none => none
        | some r2 => some (.null, r2)
      else if c = 't' then
        match dropToken ['r', 'u', 'e'] r with
        | none => none
        | some r2 => some (.bool true, r2)
      else if c = 'f' then
        match dropToken ['a', 'l', 's', 'e'] r with
        | none => none
        | some r2 => some (.bool false, r2)
      else if c = '"' then
        match parseStrBody r with
        | none => none
        | some (s, r2) => some (.str s, r2)
      else if c = '[' then
        match skipWs r with
        | [] => none
        | x :: r2 =>
          if x = ']' then some (.arr [], r2)
          else
            match parseElems fuel (x :: r2) with
            | none => none
            | some (vs, r3) => some (.arr vs, r3)
      else if c = '{' then
        match skipWs r with
        | [] => none
        | x :: r2 =>
          if x = '}' then some (.obj [], r2)
          else
            match parseMembers fuel (x :: r2) with
            | none => none
            | some (ms, r3) => some (.obj ms, r3)
      else if c = '-' then
        match parseNatNum r with
        | none => none
        | some (m, r2) => some (.num (-(m : Int)), r2)
      else if isDigitCh c then
        match parseNatNum (c :: r) with
        | none => none
        | some (m, r2) => some (.num (m : Int), r2)
      else none

/-- Parse one or more comma-separated array elements up to the closing
bracket. -/
def parseElems : Nat → List Char → Option (List JsonVal × List Char)
  | 0, _ => none
  | fuel + 1, s =>
    match parseVal fuel s with
    | none => none
    | some (v, r) =>
      match skipWs r with
      | [] => none
      | c :: r2 =>
        if c = ',' then
          match parseElems fuel r2 with
          | none => none
          | some (vs, r3) => some (v :: vs, r3)
        else if c = ']' then some ([v], r2)
        else none

/-- Parse one or more comma-separated object members up to the closing
brace. -/
def parseMembers : Nat → List Char → Option (List (List Char × JsonVal) × List Char)
  | 0, _ => none
  | fuel + 1, s =>
    match skipWs s with
    | [] => none
    | c :: r =>
      if c = '"' then
        match parseStrBody r with
        | none => none
        | some (k, r1) =>
          match skipWs r1 with
          | [] => none
          | c2 :: r2 =>
            if c2 = ':' then
              match parseVal fuel r2 with
              | none => none
              | some (v, r3) =>
                match skipWs r3 with
                | [] => none
                | c3 :: r4 =>
                  if c3 = ',' then
                    match parseMembers fuel r4 with
                    | none => none
                    | some (ms, r5) => some ((k, v) :: ms, r5)
                  else if c3 = '}' then some ([(k, v)], r4)
                  else none
            else none
      else none
end

/-- Parse a complete JSON document: one value consuming the entire input. -/
def parseJson (s : List Char) : Option JsonVal :=
  match parseVal (s.length + 1) s with
  | some (v, r) => if r = [] then some v else none
  | none => none

/-- Head-digit test: true when the input starts with a decimal digit.  A
number rendering followed by such a remainder would be mis-tokenized, so the
round-trip lemmas exclude it; every remainder actually occurring in
serializer output starts with a non-digit. -/
def headDigit : List Char → Bool
  | [] => false
  | c :: _ => isDigitCh c

/-- Record with a self-referential request body: rendering fails with a
SerializationError before the sink is reached. -/
def rrCyc : RequestResult where
  method := ['P', 'O', 'S', 'T']
  path := []
  query := none
  requestContent := some .selfRef
  responseHeaders := .json (.obj [])
  responseContent := .json .null
  statusCode := 200
  timeTaken := 1

/-- Record whose query value smuggles a newline followed by the Request JSON
label text into the header line (no URL-encoding is applied), although its
`requestContent` is absent. -/
def rrInj : RequestResult where
  method := ['G', 'E', 'T']
  path := ['x']
  query := some [(['a'],
    ['b', '\n', ' ', ' ', 'R', 'e', 'q', 'u', 'e', 's', 't', ' ', 'J', 'S', 'O', 'N', ':', ' ', 'z'])]
  requestContent := none
  responseHeaders := .json (.obj [])
  responseContent := .json .null
  statusCode := 200
  timeTaken := 1

/-- The request body of the spec's scenario record, as a JSON value. -/
def jDemoVal : JsonVal :=
  .obj [(['d', 'a', 't', 'a'], .obj [(['n', 'a', 'm', 'e'], .str ['F', 'i', 'd', 'o'])])]

/-- A small concrete record used by the witnesses: POST with a one-field JSON
body, as in the spec's scenario. -/
def rrDemo : RequestResult where
  method := ['P', 'O', 'S', 'T']
  path := []
  query := none
  requestContent := some (.json jDemoVal)
  responseHeaders := .json (.obj [(['c', 't'], .str ['j', 's', 'o', 'n'])])
  responseContent := .json (.obj [(['r', 'e', 'f'], .str ['1'])])
  statusCode := 201
  timeTaken := 13
theorem jsize_pos (v : JsonVal) : 1 ≤ jsize v := by
  cases v <;> simp [jsize]

theorem skipWs_ws (c : Char) (s : List Char) (h : isWsCh c = true) : skipWs (c :: s) = skipWs s := by
  simp [skipWs, h]

theorem skipWs_not (c : Char) (s : List Char) (h : isWsCh c = false) : skipWs (c :: s) = c :: s := by
  simp [skipWs, h]

theorem skipWs_pad (k : Nat) (s : List Char) : skipWs (pad k ++ s) = skipWs s := by
  unfold pad
  induction (2 * k) with
  | zero => simp
  | succ m ih => simpa [List.replicate_succ, skipWs, isWsCh] using ih

theorem skipWs_idem (s : List Char) : skipWs (skipWs s) = skipWs s := by
  induction s with
  | nil => simp [skipWs]
  | cons c cs ih =>
    by_cases h : isWsCh c = true
    · simp [skipWs, h, ih]
    · simp only [Bool.not_eq_true] at h
      simp [skipWs, h]

theorem parseVal_ws (fuel : Nat) (c : Char) (s : List Char) (h : isWsCh c = true) :
    parseVal fuel (c :: s) = parseVal fuel s := by
  cases fuel with
  | zero => rfl
  | succ f => simp only [parseVal, skipWs_ws c s h]

theorem parseVal_pad (fuel k : Nat) (s : List Char) :
    parseVal fuel (pad k ++ s) = parseVal fuel s := by
  cases fuel with
  | zero => rfl
  | succ f => simp only [parseVal, skipWs_pad]

theorem parseVal_skipWs (fuel : Nat) (s : List Char) :
    parseVal fuel (skipWs s) = parseVal fuel s := by
  cases fuel with
  | zero => rfl
  | succ f => simp only [parseVal, skipWs_idem]

theorem parseElems_ws (fuel : Nat) (c : Char) (s : List Char) (h : isWsCh c = true) :
    parseElems fuel (c :: s) = parseElems fuel s := by
  cases fuel with
  | zero => rfl
  | succ f => simp only [parseElems, parseVal_ws f c s h]

theorem parseElems_pad (fuel k : Nat) (s : List Char) :
    parseElems fuel (pad k ++ s) = parseElems fuel s := by
  cases fuel with
  | zero => rfl
  | succ f => simp only [parseElems, parseVal_pad]

theorem parseElems_skipWs (fuel : Nat) (s : List Char) :
    parseElems fuel (skipWs s) = parseElems fuel s := by
  cases fuel with
  | zero => rfl
  | succ f => simp only [parseElems, parseVal_skipWs]

theorem parseMembers_ws (fuel : Nat) (c : Char) (s : List Char) (h : isWsCh c = true) :
    parseMembers fuel (c :: s) = parseMembers fuel s := by
  cases fuel with
  | zero => rfl
  | succ f => simp only [parseMembers, skipWs_ws c s h]

theorem parseMembers_pad (fuel k : Nat) (s : List Char) :
    parseMembers fuel (pad k ++ s) = parseMembers fuel s := by
  cases fuel with
  | zero => rfl
  | succ f => simp only [parseMembers, skipWs_pad]

theorem parseMembers_skipWs (fuel : Nat) (s : List Char) :
    parseMembers fuel (skipWs s) = parseMembers fuel s := by
  cases fuel with
  | zero => rfl
  | succ f => simp only [parseMembers, skipWs_idem]

theorem isDigitCh_digitChar (d : Nat) : isDigitCh (digitChar d) = true := by
  unfold digitChar
  repeat' split
  all_goals decide

theorem digitVal_digitChar (d : Nat) (h : d < 10) : digitVal (digitChar d) = d := by
  interval_cases d <;> decide

theorem natCharsAux_eq (f1 f2 n : Nat) (h1 : n < f1) (h2 : n < f2) :
    natCharsAux f1 n = natCharsAux f2 n := by
  induction f1 generalizing f2 n with
  | zero => omega
  | succ f ih =>
    match f2, h2 with
    | f2' + 1, _ =>
      simp only [natCharsAux]
      split
      · rfl
      · rename_i hn
        rw [ih f2' (n / 10) (by omega) (by omega)]

theorem natChars_all_digit (n : Nat) : ∀ c ∈ natChars n, isDigitCh c = true := by
  unfold natChars
  generalize hf : n + 1 = f
  have hn : n < f := by omega
  clear hf
  induction f generalizing n with
  | zero => omega
  | succ f ih =>
    simp only [natCharsAux]
    split
    · intro c hc
      simp only [List.mem_singleton] at hc
      subst hc
      exact isDigitCh_digitChar n
    · intro c hc
      rcases List.mem_append.mp hc with h | h
      · exact ih (n / 10) (by omega) c h
      · simp only [List.mem_singleton] at h
        subst h
        exact isDigitCh_digitChar (n % 10)

theorem natChars_ne_nil (n : Nat) : natChars n ≠ [] := by
  unfold natChars
  simp only [natCharsAux]
  split
  · simp
  · simp

theorem digitsToNat_append (acc : Nat) (a b : List Char) :
    digitsToNat acc (a ++ b) = digitsToNat (digitsToNat acc a) b := by
  induction a generalizing acc with
  | nil => simp [digitsToNat]
  | cons c cs ih => simp [digitsToNat, ih]

theorem digitsToNat_natChars (n : Nat) : ∀ acc, digitsToNat acc (natChars n) = acc * 10 ^ (natChars n).length + n := by
  unfold natChars
  generalize hf : n + 1 = f
  have hn : n < f := by omega
  clear hf
  induction f generalizing n with
  | zero => omega
  | succ f ih =>
    intro acc
    simp only [natCharsAux]
    split
    · rename_i h
      simp [digitsToNat, digitVal_digitChar n h]
    · rename_i h
      rw [digitsToNat_append, List.length_append]
      rw [ih (n / 10) (by omega)]
      simp [digitsToNat, digitVal_digitChar (n % 10) (by omega)]
      ring_nf
      omega

theorem isDigitCh_elim (c : Char) (h : isDigitCh c = true) :
    c ≠ 'n' ∧ c ≠ 't' ∧ c ≠ 'f' ∧ c ≠ '"' ∧ c ≠ '[' ∧ c ≠ '{' ∧ c ≠ '-' ∧
    isWsCh c = false ∧ c ≠ ']' ∧ c ≠ '}' ∧ c ≠ ',' ∧ c ≠ ':' := by
  simp only [isDigitCh, Bool.or_eq_true, decide_eq_true_eq] at h
  rcases h with ((((((((h | h) | h) | h) | h) | h) | h) | h) | h) | h <;> subst h <;>
    exact ⟨by decide, by decide, by decide, by decide, by decide, by decide, by decide,
           by decide, by decide, by decide, by decide, by decide⟩

theorem isDigitCh_not_ws (c : Char) (h : isDigitCh c = true) : isWsCh c = false :=
  (isDigitCh_elim c h).2.2.2.2.2.2.2.1

theorem takeDigits_exact (ds r : List Char) (hds : ∀ c ∈ ds, isDigitCh c = true)
    (hr : headDigit r = false) : takeDigits (ds ++ r) = (ds, r) := by
  induction ds with
  | nil =>
    cases r with
    | nil => simp [takeDigits]
    | cons c r' =>
      simp only [headDigit] at hr
      simp [takeDigits, hr]
  | cons c cs ih =>
    have hc : isDigitCh c = true := hds c (List.mem_cons_self c cs)
    have ih' := ih (fun x hx => hds x (List.mem_cons_of_mem c hx))
    simp [takeDigits, hc, ih']

theorem parseNatNum_natChars (m : Nat) (r : List Char) (hr : headDigit r = false) :
    parseNatNum (natChars m ++ r) = some (m, r) := by
  have htd := takeDigits_exact (natChars m) r (natChars_all_digit m) hr
  match hnc : natChars m with
  | [] => exact absurd hnc (natChars_ne_nil m)
  | c0 :: t0 =>
    rw [hnc] at htd
    unfold parseNatNum
    rw [htd]
    have hd := digitsToNat_natChars m 0
    rw [hnc] at hd
    simpa using hd

theorem stringify_head (d : Nat) (v : JsonVal) :
    ∃ c t, stringifyV d v = c :: t ∧ isWsCh c = false ∧ c ≠ ']' ∧ c ≠ '}' := by
  cases v with
  | null => exact ⟨'n', _, rfl, by decide⟩
  | bool b =>
    cases b with
    | true => exact ⟨'t', _, rfl, by decide⟩
    | false => exact ⟨'f', _, rfl, by decide⟩
  | num n =>
    show ∃ c t, intChars n = c :: t ∧ _
    unfold intChars
    by_cases hn : n < 0
    · rw [if_pos hn]
      exact ⟨'-', _, rfl, by decide⟩
    · rw [if_neg hn]
      match hnc : natChars n.natAbs with
      | [] => exact absurd hnc (natChars_ne_nil _)
      | c0 :: t0 =>
        have hd : isDigitCh c0 = true := natChars_all_digit _ c0 (by rw [hnc]; exact List.mem_cons_self _ _)
        have he := isDigitCh_elim c0 hd
        exact ⟨c0, t0, rfl, he.2.2.2.2.2.2.2.1, he.2.2.2.2.2.2.2.2.1, he.2.2.2.2.2.2.2.2.2.1⟩
  | str s => exact ⟨'"', _, rfl, by decide⟩
  | arr xs =>
    cases xs with
    | nil => exact ⟨'[', _, rfl, by decide⟩
    | cons x xs' => exact ⟨'[', _, rfl, by decide⟩
  | obj kvs =>
    cases kvs with
    | nil => exact ⟨'{', _, rfl, by decide⟩
    | cons p ps => exact ⟨'{', _, rfl, by decide⟩

theorem parseStrBody_escape (s r : List Char) :
    parseStrBody (escape s ++ '"' :: r) = some (s, r) := by
  induction s with
  | nil => simp [escape, parseStrBody]
  | cons c cs ih =>
    by_cases h1 : c = '"'
    · subst h1
      simp [escape, escapeChar, parseStrBody, parseEsc, unescCh, ih]
    · by_cases h2 : c = '\\'
      · subst h2
        simp [escape, escapeChar, parseStrBody, parseEsc, unescCh, ih]
      · by_cases h3 : c = '\n'
        · subst h3
          simp [escape, escapeChar, parseStrBody, parseEsc, unescCh, ih]
        · simp [escape, escapeChar, h1, h2, h3, parseStrBody, ih]

theorem stringifyElems_cons (d : Nat) (x : JsonVal) (xs' : List JsonVal) :
    ∃ z, stringifyElems d (x :: xs') = pad (d+1) ++ (stringifyV (d+1) x ++ z) := by
  cases xs' with
  | nil => exact ⟨[], by simp [stringifyElems]⟩
  | cons y ys => exact ⟨',' :: '\n' :: stringifyElems d (y :: ys), by simp [stringifyElems]⟩

theorem stringifyMembers_cons (d : Nat) (k : List Char) (v : JsonVal) (ms : List (List Char × JsonVal)) :
    ∃ z, stringifyMembers d ((k, v) :: ms) =
      pad (d+1) ++ ('"' :: (escape k ++ ('"' :: ':' :: ' ' :: (stringifyV (d+1) v ++ z)))) := by
  cases ms with
  | nil => exact ⟨[], by simp [stringifyMembers]⟩
  | cons m ms' => exact ⟨',' :: '\n' :: stringifyMembers d (m :: ms'), by simp [stringifyMembers]⟩

theorem roundTripAux (N : Nat) :
    (∀ v, jsize v ≤ N → ∀ fuel d r, jsize v ≤ fuel → headDigit r = false →
       parseVal fuel (stringifyV d v ++ r) = some (v, r)) ∧
    (∀ xs, xs ≠ ([] : List JsonVal) → lsize xs ≤ N → ∀ fuel d r, lsize xs ≤ fuel → headDigit r = false →
       parseElems fuel (stringifyElems d xs ++ ('\n' :: (pad d ++ (']' :: r)))) = some (xs, r)) ∧
    (∀ kvs, kvs ≠ ([] : List (List Char × JsonVal)) → msize kvs ≤ N → ∀ fuel d r, msize kvs ≤ fuel → headDigit r = false →
       parseMembers fuel (stringifyMembers d kvs ++ ('\n' :: (pad d ++ ('}' :: r)))) = some (kvs, r)) := by
  induction N with
  | zero =>
    refine ⟨fun v hv => absurd hv (by have := jsize_pos v; omega), fun xs hne hs => ?_, fun kvs hne hs => ?_⟩
    · cases xs with
      | nil => exact absurd rfl hne
      | cons x xs' =>
        exfalso
        have h1 := jsize_pos x
        have h2 : 1 + jsize x + lsize xs' ≤ 0 := by rw [show 1 + jsize x + lsize xs' = lsize (x :: xs') from by simp [lsize]]; exact hs
        omega
    · cases kvs with
      | nil => exact absurd rfl hne
      | cons m ms =>
        exfalso
        obtain ⟨mk, mv⟩ := m
        have h1 := jsize_pos mv
        have h2 : 1 + jsize mv + msize ms ≤ 0 := by rw [show 1 + jsize mv + msize ms = msize ((mk, mv) :: ms) from by simp [msize]]; exact hs
        omega
  | succ N ih =>
    obtain ⟨ihV, ihE, ihM⟩ := ih
    refine ⟨?_, ?_, ?_⟩
    · -- values
      intro v hv fuel d r hfuel hr
      have hj := jsize_pos v
      cases fuel with
      | zero => omega
      | succ f =>
        cases v with
        | null =>
          simp +decide [stringifyV, litNull, parseVal, skipWs, isWsCh, dropToken]
        | bool b =>
          cases b with
          | true => simp +decide [stringifyV, litTrue, parseVal, skipWs, isWsCh, dropToken]
          | false => simp +decide [stringifyV, litFalse, parseVal, skipWs, isWsCh, dropToken]
        | num n =>
          by_cases hn : n < 0
          · simp only [stringifyV, intChars, if_pos hn, List.cons_append, parseVal]
            rw [skipWs_not '-' _ (by decide)]
            simp only []
            rw [if_neg (by decide : ¬('-' : Char) = 'n'), if_neg (by decide : ¬('-' : Char) = 't'),
              if_neg (by decide : ¬('-' : Char) = 'f'), if_neg (by decide : ¬('-' : Char) = '"'),
              if_neg (by decide : ¬('-' : Char) = '['), if_neg (by decide : ¬('-' : Char) = '{')]
            simp only [reduceIte]
            rw [parseNatNum_natChars _ r hr]
            have h9 : -((n.natAbs : Nat) : Int) = n := by omega
            simp only [h9]
          · simp only [stringifyV, intChars, if_neg hn]
            match hnc : natChars n.natAbs with
            | [] => exact absurd hnc (natChars_ne_nil _)
            | c0 :: t0 =>
              have hdg : isDigitCh c0 = true :=
                natChars_all_digit _ c0 (by rw [hnc]; exact List.mem_cons_self _ _)
              obtain ⟨g1, g2, g3, g4, g5, g6, g7, gws, g8, g9, g10, g11⟩ := isDigitCh_elim c0 hdg
              simp only [List.cons_append, parseVal]
              rw [skipWs_not c0 _ gws]
              simp only []
              rw [if_neg g1, if_neg g2, if_neg g3, if_neg g4, if_neg g5, if_neg g6, if_neg g7,
                if_pos hdg]
              rw [← List.cons_append, ← hnc, parseNatNum_natChars _ r hr]
              have h9 : ((n.natAbs : Nat) : Int) = n := by omega
              simp only [h9]
        | str s =>
          simp only [stringifyV, List.cons_append, List.nil_append, List.append_assoc,
            List.singleton_append, parseVal]
          rw [skipWs_not '"' _ (by decide)]
          simp only []
          rw [if_neg (by decide : ¬('"' : Char) = 'n'), if_neg (by decide : ¬('"' : Char) = 't'),
            if_neg (by decide : ¬('"' : Char) = 'f'), if_pos trivial]
          rw [parseStrBody_escape s r]
        | arr xs =>
          cases xs with
          | nil => simp +decide [stringifyV, parseVal, skipWs, isWsCh]
          | cons x xs' =>
            have hsz : 1 + lsize (x :: xs') = jsize (JsonVal.arr (x :: xs')) := by simp [jsize]
            obtain ⟨c0, t0, hx, hws, hne1, hne2⟩ := stringify_head (d+1) x
            obtain ⟨z, hz⟩ := stringifyElems_cons d x xs'
            have hE : stringifyElems d (x :: xs') ++ ('\n' :: (pad d ++ (']' :: r))) =
                pad (d+1) ++ (stringifyV (d+1) x ++ (z ++ ('\n' :: (pad d ++ (']' :: r))))) := by
              rw [hz]; simp [List.append_assoc]
            have hpe : parseElems f (stringifyElems d (x :: xs') ++ ('\n' :: (pad d ++ (']' :: r)))) =
                some (x :: xs', r) :=
              ihE (x :: xs') (by simp) (by omega) f d r (by omega) hr
            have hchain : parseElems f (c0 :: (t0 ++ (z ++ ('\n' :: (pad d ++ (']' :: r)))))) =
                some (x :: xs', r) := by
              have h1 : c0 :: (t0 ++ (z ++ ('\n' :: (pad d ++ (']' :: r))))) =
                  stringifyV (d+1) x ++ (z ++ ('\n' :: (pad d ++ (']' :: r)))) := by
                rw [hx, List.cons_append]
              rw [h1, ← parseElems_pad f (d+1), ← hE]
              exact hpe
            have hskip : skipWs (stringifyElems d (x :: xs') ++ ('\n' :: (pad d ++ (']' :: r)))) =
                c0 :: (t0 ++ (z ++ ('\n' :: (pad d ++ (']' :: r))))) := by
              rw [hE, skipWs_pad, hx, List.cons_append, skipWs_not _ _ hws]
            simp only [stringifyV, List.cons_append, List.nil_append, List.append_assoc,
              List.singleton_append, parseVal]
            rw [skipWs_not '[' _ (by decide)]
            simp only []
            rw [if_neg (by decide : ¬('[' : Char) = 'n'), if_neg (by decide : ¬('[' : Char) = 't'),
              if_neg (by decide : ¬('[' : Char) = 'f'), if_neg (by decide : ¬('[' : Char) = '"'),
              if_pos trivial]
            rw [skipWs_ws '\n' _ (by decide), hskip]
            simp only []
            rw [if_neg hne1, hchain]
        | obj kvs =>
          cases kvs with
          | nil => simp +decide [stringifyV, parseVal, skipWs, isWsCh]
          | cons kv ms =>
            obtain ⟨k, v0⟩ := kv
            have hsz : 1 + msize ((k, v0) :: ms) = jsize (JsonVal.obj ((k, v0) :: ms)) := by simp [jsize]
            obtain ⟨z, hz⟩ := stringifyMembers_cons d k v0 ms
            have hM : stringifyMembers d ((k, v0) :: ms) ++ ('\n' :: (pad d ++ ('}' :: r))) =
                pad (d+1) ++ ('"' :: (escape k ++ ('"' :: ':' :: ' ' :: (stringifyV (d+1) v0 ++
                  (z ++ ('\n' :: (pad d ++ ('}' :: r)))))))) := by
              rw [hz]; simp [List.append_assoc]
            have hpm : parseMembers f (stringifyMembers d ((k, v0) :: ms) ++ ('\n' :: (pad d ++ ('}' :: r)))) =
                some ((k, v0) :: ms, r) :=
              ihM ((k, v0) :: ms) (by simp) (by omega) f d r (by omega) hr
            have hskip : skipWs (stringifyMembers d ((k, v0) :: ms) ++ ('\n' :: (pad d ++ ('}' :: r)))) =
                '"' :: (escape k ++ ('"' :: ':' :: ' ' :: (stringifyV (d+1) v0 ++
                  (z ++ ('\n' :: (pad d ++ ('}' :: r))))))) := by
              rw [hM, skipWs_pad, skipWs_not '"' _ (by decide)]
            have hchain : parseMembers f ('"' :: (escape k ++ ('"' :: ':' :: ' ' :: (stringifyV (d+1) v0 ++
                (z ++ ('\n' :: (pad d ++ ('}' :: r)))))))) = some ((k, v0) :: ms, r) := by
              rw [← hskip, parseMembers_skipWs]
              exact hpm
            simp only [stringifyV, List.cons_append, List.nil_append, List.append_assoc,
              List.singleton_append, parseVal]
            rw [skipWs_not '{' _ (by decide)]
            simp only []
            rw [if_neg (by decide : ¬('{' : Char) = 'n'), if_neg (by decide : ¬('{' : Char) = 't'),
              if_neg (by decide : ¬('{' : Char) = 'f'), if_neg (by decide : ¬('{' : Char) = '"'),
              if_neg (by decide : ¬('{' : Char) = '['), if_pos trivial]
            rw [skipWs_ws '\n' _ (by decide), hskip]
            simp only []
            rw [if_neg (by decide : ¬('"' : Char) = '}'), hchain]
    · -- element lists
      intro xs hne hs fuel d r hfuel hr
      cases xs with
      | nil => exact absurd rfl hne
      | cons x xs' =>
        have hjx := jsize_pos x
        have hls : lsize (x :: xs') = 1 + jsize x + lsize xs' := by simp [lsize]
        cases fuel with
        | zero => omega
        | succ f =>
          cases xs' with
          | nil =>
            have hlsn : lsize ([] : List JsonVal) = 1 := by simp [lsize]
            have hT := ihV x (by omega) f (d+1) ('\n' :: (pad d ++ (']' :: r))) (by omega) rfl
            simp only [stringifyElems, List.append_assoc, List.cons_append, List.nil_append, parseElems]
            rw [parseVal_pad, hT]
            simp only []
            rw [skipWs_ws '\n' _ (by decide), skipWs_pad, skipWs_not ']' _ (by decide)]
            simp only []
            rw [if_neg (by decide : ¬(']' : Char) = ','), if_pos trivial]
          | cons y ys =>
            have hlsY : lsize (x :: y :: ys) = 1 + jsize x + lsize (y :: ys) := by simp [lsize]
            have hsY : lsize (y :: ys) ≤ N := by omega
            have hfY : lsize (y :: ys) ≤ f := by omega
            have hT := ihV x (by omega) f (d+1)
              (',' :: '\n' :: (stringifyElems d (y :: ys) ++ ('\n' :: (pad d ++ (']' :: r))))) (by omega) rfl
            have hrec := ihE (y :: ys) (by simp) hsY f d r hfY hr
            simp only [stringifyElems, List.append_assoc, List.cons_append, List.nil_append, parseElems]
            rw [parseVal_pad, hT]
            simp only []
            rw [skipWs_not ',' _ (by decide)]
            simp only []
            rw [if_pos trivial, parseElems_ws f '\n' _ (by decide), hrec]
    · -- member lists
      intro kvs hne hs fuel d r hfuel hr
      cases kvs with
      | nil => exact absurd rfl hne
      | cons kv ms =>
        obtain ⟨k, v0⟩ := kv
        have hjv := jsize_pos v0
        have hms : msize ((k, v0) :: ms) = 1 + jsize v0 + msize ms := by simp [msize]
        cases fuel with
        | zero => omega
        | succ f =>
          cases ms with
          | nil =>
            have hT := ihV v0 (by omega) f (d+1) ('\n' :: (pad d ++ ('}' :: r))) (by omega) rfl
            simp only [stringifyMembers, List.append_assoc, List.cons_append, List.nil_append, parseMembers]
            rw [skipWs_pad, skipWs_not '"' _ (by decide)]
            simp only []
            rw [if_pos trivial, parseStrBody_escape k]
            simp only []
            rw [skipWs_not ':' _ (by decide)]
            simp only []
            rw [if_pos trivial, parseVal_ws f ' ' _ (by decide), hT]
            simp only []
            rw [skipWs_ws '\n' _ (by decide), skipWs_pad, skipWs_not '}' _ (by decide)]
            simp only []
            rw [if_neg (by decide : ¬('}' : Char) = ','), if_pos trivial]
          | cons m ms' =>
            have hmsM : msize ((k, v0) :: m :: ms') = 1 + jsize v0 + msize (m :: ms') := by simp [msize]
            have hsM : msize (m :: ms') ≤ N := by omega
            have hfM : msize (m :: ms') ≤ f := by omega
            have hT := ihV v0 (by omega) f (d+1)
              (',' :: '\n' :: (stringifyMembers d (m :: ms') ++ ('\n' :: (pad d ++ ('}' :: r))))) (by omega) rfl
            have hrec := ihM (m :: ms') (by simp) hsM f d r hfM hr
            simp only [stringifyMembers, List.append_assoc, List.cons_append, List.nil_append, parseMembers]
            rw [skipWs_pad, skipWs_not '"' _ (by decide)]
            simp only []
            rw [if_pos trivial, parseStrBody_escape k]
            simp only []
            rw [skipWs_not ':' _ (by decide)]
            simp only []
            rw [if_pos trivial, parseVal_ws f ' ' _ (by decide), hT]
            simp only []
            rw [skipWs_not ',' _ (by decide)]
            simp only []
            rw [if_pos trivial, parseMembers_ws f '\n' _ (by decide), hrec]

theorem splitLines_ne_nil (s : List Char) : splitLines s ≠ [] := by
  induction s with
  | nil => simp [splitLines]
  | cons c cs ih =>
    simp only [splitLines]
    split
    · simp
    · match h : splitLines cs with
      | [] => simp
      | l :: ls => simp

theorem splitLines_append_nl (a b : List Char) :
    splitLines (a ++ '\n' :: b) = splitLines a ++ splitLines b := by
  induction a with
  | nil => simp [splitLines]
  | cons c cs ih =>
    simp only [List.cons_append, splitLines, List.append_eq]
    split
    · rw [ih]; simp
    · match h : splitLines cs with
      | [] => exact absurd h (splitLines_ne_nil cs)
      | l :: ls => rw [ih, h]; simp

theorem splitLines_nonl (a : List Char) (h : '\n' ∉ a) : splitLines a = [a] := by
  induction a with
  | nil => simp [splitLines]
  | cons c cs ih =>
    simp only [List.mem_cons, not_or] at h
    simp only [splitLines, if_neg (Ne.symm h.1), ih h.2]

theorem splitLines_append_left_nonl (a b : List Char) (h : '\n' ∉ a) (l : List Char)
    (ls : List (List Char)) (hb : splitLines b = l :: ls) :
    splitLines (a ++ b) = (a ++ l) :: ls := by
  induction a with
  | nil => simpa using hb
  | cons c cs ih =>
    simp only [List.mem_cons, not_or] at h
    simp only [List.cons_append, splitLines, List.append_eq, if_neg (Ne.symm h.1)]
    rw [ih h.2]

theorem intercalate_cons2 (sep a b : List Char) (t : List (List Char)) :
    List.intercalate sep (a :: b :: t) = a ++ sep ++ List.intercalate sep (b :: t) := by
  simp [List.intercalate, List.intersperse]

theorem intercalate_nl_splitLines (s : List Char) :
    List.intercalate ['\n'] (splitLines s) = s := by
  induction s with
  | nil => simp [splitLines, List.intercalate]
  | cons c cs ih =>
    by_cases hc : c = '\n'
    · subst hc
      simp only [splitLines, eq_self_iff_true, if_true]
      match h : splitLines cs with
      | [] => exact absurd h (splitLines_ne_nil cs)
      | l :: ls =>
        rw [h] at ih
        rw [intercalate_cons2]
        simpa using ih
    · simp only [splitLines, if_neg hc]
      match h : splitLines cs with
      | [] => exact absurd h (splitLines_ne_nil cs)
      | l :: ls =>
        rw [h] at ih
        cases ls with
        | nil =>
          simp only [List.intercalate] at ih ⊢
          simpa [List.intersperse] using congrArg (c :: ·) ih
        | cons m ms =>
          rw [intercalate_cons2] at ih
          rw [intercalate_cons2]
          simpa [List.cons_append] using congrArg (c :: ·) ih

theorem _indent_eq_indentCh (s : List Char) : _indent s = indentCh s := by
  unfold _indent indentStr
  induction s with
  | nil => simp [splitLines, indentCh, List.intercalate]
  | cons c cs ih =>
    by_cases hc : c = '\n'
    · subst hc
      simp only [splitLines, eq_self_iff_true, if_true, indentCh]
      match h : splitLines cs with
      | [] => exact absurd h (splitLines_ne_nil cs)
      | l :: ls =>
        rw [h] at ih
        rw [intercalate_cons2]
        simpa using ih
    · simp only [splitLines, if_neg hc, indentCh]
      match h : splitLines cs with
      | [] => exact absurd h (splitLines_ne_nil cs)
      | l :: ls =>
        rw [h] at ih
        cases ls with
        | nil =>
          simp only [List.intercalate] at ih ⊢
          simpa [List.intersperse] using congrArg (c :: ·) ih
        | cons m ms =>
          rw [intercalate_cons2] at ih
          rw [intercalate_cons2]
          simpa [List.cons_append] using congrArg (c :: ·) ih

theorem splitLines_indentCh (s : List Char) :
    ∀ l ls, splitLines s = l :: ls →
      splitLines (indentCh s) = l :: ls.map (fun x => ' ' :: ' ' :: x) := by
  induction s with
  | nil =>
    intro l ls h
    simp only [splitLines] at h
    injection h with h1 h2
    subst h1
    subst h2
    simp [indentCh, splitLines]
  | cons c cs ih =>
    intro l ls h
    by_cases hc : c = '\n'
    · subst hc
      simp only [splitLines, eq_self_iff_true, if_true] at h
      match hcs : splitLines cs with
      | [] => exact absurd hcs (splitLines_ne_nil cs)
      | l' :: ls' =>
        rw [hcs] at h
        injection h with h1 h2
        subst h1
        subst h2
        have hrec := ih l' ls' hcs
        simp only [indentCh, eq_self_iff_true, if_true]
        simp only [splitLines, eq_self_iff_true, if_true,
          if_neg (by decide : ¬(' ' : Char) = '\n'), hrec]
        simp
    · simp only [splitLines, if_neg hc] at h
      match hcs : splitLines cs with
      | [] => exact absurd hcs (splitLines_ne_nil cs)
      | l' :: ls' =>
        rw [hcs] at h
        injection h with h1 h2
        subst h1
        subst h2
        have hrec := ih l' ls' hcs
        simp only [indentCh, if_neg hc]
        simp only [splitLines, if_neg hc, hrec]

theorem dropIndentPair_two_spaces (x : List Char) :
    dropIndentPair (' ' :: ' ' :: x) = x := by
  simp [dropIndentPair]

theorem map_dropIndentPair_add2 (ls : List (List Char)) :
    (ls.map (fun x => ' ' :: ' ' :: x)).map dropIndentPair = ls := by
  induction ls with
  | nil => simp
  | cons a t ih => simp [dropIndentPair_two_spaces, ih]

theorem unindent_indent (s : List Char) : unindentChars (_indent s) = s := by
  rw [_indent_eq_indentCh]
  match h : splitLines s with
  | [] => exact absurd h (splitLines_ne_nil s)
  | l :: ls =>
    unfold unindentChars
    rw [splitLines_indentCh s l ls h]
    simp only [List.map]
    rw [map_dropIndentPair_add2]
    rw [← h, intercalate_nl_splitLines]

theorem nlOk_cons_not (c : Char) (s : List Char) (hc : c ≠ '\n') :
    nlOk (c :: s) = nlOk s := by
  simp [nlOk, hc]

theorem nlOk_nonl_append (a b : List Char) (h : '\n' ∉ a) :
    nlOk (a ++ b) = nlOk b := by
  induction a with
  | nil => simp
  | cons c cs ih =>
    simp only [List.mem_cons, not_or] at h
    rw [List.cons_append, nlOk_cons_not c _ (Ne.symm h.1), ih h.2]

theorem nonl_escapeChar (c : Char) : '\n' ∉ escapeChar c := by
  unfold escapeChar
  by_cases h1 : c = '"'
  · simp [h1]
  · by_cases h2 : c = '\\'
    · simp [h1, h2]
    · by_cases h3 : c = '\n'
      · simp [h1, h2, h3]
      · simp [h1, h2, h3]
        exact fun he => h3 he.symm

theorem nonl_escape (s : List Char) : '\n' ∉ escape s := by
  induction s with
  | nil => simp [escape]
  | cons c cs ih =>
    simp only [escape, List.mem_append, not_or]
    exact ⟨nonl_escapeChar c, ih⟩

theorem isDigitCh_ne_nl (c : Char) (h : isDigitCh c = true) : c ≠ '\n' := by
  simp only [isDigitCh, Bool.or_eq_true, decide_eq_true_eq] at h
  rcases h with ((((((((h | h) | h) | h) | h) | h) | h) | h) | h) | h <;> subst h <;> decide

theorem nonl_natChars (n : Nat) : '\n' ∉ natChars n := by
  intro hmem
  exact isDigitCh_ne_nl '\n' (natChars_all_digit n '\n' hmem) rfl

theorem nonl_pad (d : Nat) : '\n' ∉ pad d := by
  unfold pad
  intro h
  have := List.eq_of_mem_replicate h
  exact absurd this (by decide)

theorem pad_succ_shape (d : Nat) : ∃ t, pad (d + 1) = ' ' :: t := by
  unfold pad
  refine ⟨List.replicate (2 * d + 1) ' ', ?_⟩
  rw [show 2 * (d + 1) = 2 * d + 1 + 1 from by ring, List.replicate_succ]

theorem headOk_pad_succ (d : Nat) (x : List Char) :
    headOkAfterNl (pad (d + 1) ++ x) = true := by
  obtain ⟨t, ht⟩ := pad_succ_shape d
  rw [ht]
  simp [headOkAfterNl, okAfterNl]

theorem headOk_pad_close (d : Nat) (b : Char) (r : List Char) (hb : okAfterNl b = true) :
    headOkAfterNl (pad d ++ b :: r) = true := by
  cases d with
  | zero => simpa [pad, headOkAfterNl] using hb
  | succ d' => exact headOk_pad_succ d' _

theorem okAfterNl_ne_nl (c : Char) (h : okAfterNl c = true) : c ≠ '\n' := by
  simp only [okAfterNl, Bool.or_eq_true, decide_eq_true_eq] at h
  rcases h with (h | h) | h <;> subst h <;> decide

theorem nlOk_stringify (N : Nat) :
    (∀ v, jsize v ≤ N → ∀ d r, nlOk r = true → nlOk (stringifyV d v ++ r) = true) ∧
    (∀ xs, xs ≠ ([] : List JsonVal) → lsize xs ≤ N → ∀ d r, nlOk r = true →
      nlOk (stringifyElems d xs ++ r) = true) ∧
    (∀ kvs, kvs ≠ ([] : List (List Char × JsonVal)) → msize kvs ≤ N → ∀ d r, nlOk r = true →
      nlOk (stringifyMembers d kvs ++ r) = true) := by
  induction N with
  | zero =>
    refine ⟨fun v hv => absurd hv (by have := jsize_pos v; omega), fun xs hne hs => ?_, fun kvs hne hs => ?_⟩
    · cases xs with
      | nil => exact absurd rfl hne
      | cons x xs' =>
        exfalso
        have h1 := jsize_pos x
        have h2 : 1 + jsize x + lsize xs' ≤ 0 := by
          rw [show 1 + jsize x + lsize xs' = lsize (x :: xs') from by simp [lsize]]
          exact hs
        omega
    · cases kvs with
      | nil => exact absurd rfl hne
      | cons m ms =>
        exfalso
        obtain ⟨mk, mv⟩ := m
        have h1 := jsize_pos mv
        have h2 : 1 + jsize mv + msize ms ≤ 0 := by
          rw [show 1 + jsize mv + msize ms = msize ((mk, mv) :: ms) from by simp [msize]]
          exact hs
        omega
  | succ N ih =>
    obtain ⟨ihV, ihE, ihM⟩ := ih
    refine ⟨?_, ?_, ?_⟩
    · intro v hv d r hr
      cases v with
      | null =>
        rw [show stringifyV d JsonVal.null ++ r = litNull ++ r from rfl,
          nlOk_nonl_append _ _ (by decide)]
        exact hr
      | bool b =>
        cases b with
        | true =>
          rw [show stringifyV d (JsonVal.bool true) ++ r = litTrue ++ r from rfl,
            nlOk_nonl_append _ _ (by decide)]
          exact hr
        | false =>
          rw [show stringifyV d (JsonVal.bool false) ++ r = litFalse ++ r from rfl,
            nlOk_nonl_append _ _ (by decide)]
          exact hr
      | num n =>
        have hnl : '\n' ∉ stringifyV d (JsonVal.num n) := by
          show '\n' ∉ intChars n
          unfold intChars
          split
          · simp only [List.mem_cons, not_or]
            exact ⟨by decide, nonl_natChars _⟩
          · exact nonl_natChars _
        rw [nlOk_nonl_append _ _ hnl]
        exact hr
      | str s =>
        have hnl : '\n' ∉ stringifyV d (JsonVal.str s) := by
          show '\n' ∉ '"' :: escape s ++ ['"']
          intro hmem
          rcases List.mem_cons.mp hmem with h | h
          · exact absurd h (by decide)
          · rcases List.mem_append.mp h with h2 | h2
            · exact nonl_escape s h2
            · rcases List.mem_singleton.mp h2 with h3
              exact absurd h3 (by decide)
        rw [nlOk_nonl_append _ _ hnl]
        exact hr
      | arr xs =>
        cases xs with
        | nil =>
          rw [show stringifyV d (JsonVal.arr []) ++ r = ['[', ']'] ++ r from rfl,
            nlOk_nonl_append _ _ (by decide)]
          exact hr
        | cons x xs' =>
          obtain ⟨z, hz⟩ := stringifyElems_cons d x xs'
          have hTAILok : nlOk ('\n' :: (pad d ++ ']' :: r)) = true := by
            simp only [nlOk, eq_self_iff_true, if_true]
            rw [headOk_pad_close d ']' r (by decide),
              nlOk_nonl_append _ _ (nonl_pad d), nlOk_cons_not ']' r (by decide)]
            simpa using hr
          have hE : nlOk (stringifyElems d (x :: xs') ++ ('\n' :: (pad d ++ ']' :: r))) = true :=
            ihE (x :: xs') (by simp) (by
              have : jsize (JsonVal.arr (x :: xs')) = 1 + lsize (x :: xs') := by simp [jsize]
              omega) d _ hTAILok
          have hhead : headOkAfterNl (stringifyElems d (x :: xs') ++ ('\n' :: (pad d ++ ']' :: r))) = true := by
            rw [hz, List.append_assoc]
            exact headOk_pad_succ d _
          show nlOk (('[' :: '\n' :: stringifyElems d (x :: xs') ++ '\n' :: pad d ++ [']']) ++ r) = true
          simp only [List.cons_append, List.append_assoc, List.singleton_append, List.nil_append]
          rw [nlOk_cons_not '[' _ (by decide)]
          simp only [nlOk, eq_self_iff_true, if_true]
          rw [hhead, hE]
          rfl
      | obj kvs =>
        cases kvs with
        | nil =>
          rw [show stringifyV d (JsonVal.obj []) ++ r = ['{', '}'] ++ r from rfl,
            nlOk_nonl_append _ _ (by decide)]
          exact hr
        | cons kv ms =>
          obtain ⟨k, v0⟩ := kv
          obtain ⟨z, hz⟩ := stringifyMembers_cons d k v0 ms
          have hTAILok : nlOk ('\n' :: (pad d ++ '}' :: r)) = true := by
            simp only [nlOk, eq_self_iff_true, if_true]
            rw [headOk_pad_close d '}' r (by decide),
              nlOk_nonl_append _ _ (nonl_pad d), nlOk_cons_not '}' r (by decide)]
            simpa using hr
          have hM : nlOk (stringifyMembers d ((k, v0) :: ms) ++ ('\n' :: (pad d ++ '}' :: r))) = true :=
            ihM ((k, v0) :: ms) (by simp) (by
              have : jsize (JsonVal.obj ((k, v0) :: ms)) = 1 + msize ((k, v0) :: ms) := by simp [jsize]
              omega) d _ hTAILok
          have hhead : headOkAfterNl (stringifyMembers d ((k, v0) :: ms) ++ ('\n' :: (pad d ++ '}' :: r))) = true := by
            rw [hz, List.append_assoc]
            exact headOk_pad_succ d _
          show nlOk (('{' :: '\n' :: stringifyMembers d ((k, v0) :: ms) ++ '\n' :: pad d ++ ['}']) ++ r) = true
          simp only [List.cons_append, List.append_assoc, List.singleton_append, List.nil_append]
          rw [nlOk_cons_not '{' _ (by decide)]
          simp only [nlOk, eq_self_iff_true, if_true]
          rw [hhead, hM]
          rfl
    · intro xs hne hs d r hr
      cases xs with
      | nil => exact absurd rfl hne
      | cons x xs' =>
        have hjx := jsize_pos x
        have hls : lsize (x :: xs') = 1 + jsize x + lsize xs' := by simp [lsize]
        cases xs' with
        | nil =>
          show nlOk ((pad (d+1) ++ stringifyV (d+1) x) ++ r) = true
          rw [List.append_assoc, nlOk_nonl_append _ _ (nonl_pad (d+1))]
          exact ihV x (by omega) (d+1) r hr
        | cons y ys =>
          have hlsY : lsize (x :: y :: ys) = 1 + jsize x + lsize (y :: ys) := by simp [lsize]
          have hrecOk : nlOk (',' :: '\n' :: (stringifyElems d (y :: ys) ++ r)) = true := by
            rw [nlOk_cons_not ',' _ (by decide)]
            simp only [nlOk, eq_self_iff_true, if_true]
            have hE' := ihE (y :: ys) (by simp) (by omega) d r hr
            rw [hE']
            obtain ⟨z2, hz2⟩ := stringifyElems_cons d y ys
            rw [hz2, List.append_assoc, headOk_pad_succ d _]
            rfl
          show nlOk ((pad (d+1) ++ stringifyV (d+1) x ++ ',' :: '\n' :: stringifyElems d (y :: ys)) ++ r) = true
          simp only [List.append_assoc, List.cons_append]
          rw [nlOk_nonl_append _ _ (nonl_pad (d+1))]
          exact ihV x (by omega) (d+1) _ hrecOk
    · intro kvs hne hs d r hr
      cases kvs with
      | nil => exact absurd rfl hne
      | cons kv ms =>
        obtain ⟨k, v0⟩ := kv
        have hjv := jsize_pos v0
        have hms : msize ((k, v0) :: ms) = 1 + jsize v0 + msize ms := by simp [msize]
        cases ms with
        | nil =>
          show nlOk ((pad (d+1) ++ '"' :: escape k ++ '"' :: ':' :: ' ' :: stringifyV (d+1) v0) ++ r) = true
          simp only [List.append_assoc, List.cons_append]
          rw [nlOk_nonl_append _ _ (nonl_pad (d+1)), nlOk_cons_not '"' _ (by decide),
            nlOk_nonl_append _ _ (nonl_escape k), nlOk_cons_not '"' _ (by decide),
            nlOk_cons_not ':' _ (by decide), nlOk_cons_not ' ' _ (by decide)]
          exact ihV v0 (by omega) (d+1) r hr
        | cons m ms' =>
          have hmsM : msize ((k, v0) :: m :: ms') = 1 + jsize v0 + msize (m :: ms') := by simp [msize]
          have hrecOk : nlOk (',' :: '\n' :: (stringifyMembers d (m :: ms') ++ r)) = true := by
            rw [nlOk_cons_not ',' _ (by decide)]
            simp only [nlOk, eq_self_iff_true, if_true]
            have hM' := ihM (m :: ms') (by simp) (by omega) d r hr
            rw [hM']
            obtain ⟨km, vm⟩ := m
            obtain ⟨z2, hz2⟩ := stringifyMembers_cons d km vm ms'
            rw [hz2, List.append_assoc, headOk_pad_succ d _]
            rfl
          show nlOk ((pad (d+1) ++ '"' :: escape k ++ '"' :: ':' :: ' ' :: stringifyV (d+1) v0 ++
            ',' :: '\n' :: stringifyMembers d (m :: ms')) ++ r) = true
          simp only [List.append_assoc, List.cons_append]
          rw [nlOk_nonl_append _ _ (nonl_pad (d+1)), nlOk_cons_not '"' _ (by decide),
            nlOk_nonl_append _ _ (nonl_escape k), nlOk_cons_not '"' _ (by decide),
            nlOk_cons_not ':' _ (by decide), nlOk_cons_not ' ' _ (by decide)]
          exact ihV v0 (by omega) (d+1) _ hrecOk

theorem nlOk_stringifyV (v : JsonVal) (d : Nat) : nlOk (stringifyV d v) = true := by
  have h := (nlOk_stringify (jsize v)).1 v le_rfl d [] rfl
  simpa using h

theorem nlOk_tail_lines (s : List Char) (h : nlOk s = true) :
    ∀ l ∈ (splitLines s).tail, ∃ c t, l = c :: t ∧ okAfterNl c = true := by
  induction s with
  | nil =>
    intro l hl
    simp [splitLines] at hl
  | cons c cs ih =>
    by_cases hc : c = '\n'
    · subst hc
      simp only [nlOk, eq_self_iff_true, if_true, Bool.and_eq_true] at h
      obtain ⟨hhead, htail⟩ := h
      intro l hl
      simp only [splitLines, eq_self_iff_true, if_true, List.tail_cons] at hl
      match hcs : cs, hhead with
      | c2 :: cs', hhead =>
        simp only [headOkAfterNl] at hhead
        have hc2 : c2 ≠ '\n' := okAfterNl_ne_nl c2 hhead
        simp only [splitLines, if_neg hc2] at hl
        match hcs' : splitLines cs' with
        | [] => exact absurd hcs' (splitLines_ne_nil cs')
        | l' :: ls' =>
          rw [hcs'] at hl
          rcases List.mem_cons.mp hl with rfl | hl2
          · exact ⟨c2, l', rfl, hhead⟩
          · apply ih htail
            simp only [splitLines, if_neg hc2, hcs']
            simpa using hl2
    · rw [nlOk_cons_not c cs hc] at h
      intro l hl
      simp only [splitLines, if_neg hc] at hl
      match hcs : splitLines cs with
      | [] => exact absurd hcs (splitLines_ne_nil cs)
      | l' :: ls' =>
        rw [hcs] at hl
        simp only [List.tail_cons] at hl
        apply ih h
        rw [hcs]
        simpa using hl

theorem natChars_length_pos (n : Nat) : 1 ≤ (natChars n).length := by
  match h : natChars n with
  | [] => exact absurd h (natChars_ne_nil n)
  | c :: t => simp

theorem sizeLenAux (N : Nat) :
    (∀ v, jsize v ≤ N → ∀ d, jsize v ≤ (stringifyV d v).length) ∧
    (∀ xs, xs ≠ ([] : List JsonVal) → lsize xs ≤ N → ∀ d,
      lsize xs ≤ (stringifyElems d xs).length + 1) ∧
    (∀ kvs, kvs ≠ ([] : List (List Char × JsonVal)) → msize kvs ≤ N → ∀ d,
      msize kvs ≤ (stringifyMembers d kvs).length + 1) := by
  induction N with
  | zero =>
    refine ⟨fun v hv => absurd hv (by have := jsize_pos v; omega), fun xs hne hs => ?_, fun kvs hne hs => ?_⟩
    · cases xs with
      | nil => exact absurd rfl hne
      | cons x xs' =>
        exfalso
        have h1 := jsize_pos x
        have h2 : 1 + jsize x + lsize xs' ≤ 0 := by
          rw [show 1 + jsize x + lsize xs' = lsize (x :: xs') from by simp [lsize]]
          exact hs
        omega
    · cases kvs with
      | nil => exact absurd rfl hne
      | cons m ms =>
        exfalso
        obtain ⟨mk, mv⟩ := m
        have h1 := jsize_pos mv
        have h2 : 1 + jsize mv + msize ms ≤ 0 := by
          rw [show 1 + jsize mv + msize ms = msize ((mk, mv) :: ms) from by simp [msize]]
          exact hs
        omega
  | succ N ih =>
    obtain ⟨ihV, ihE, ihM⟩ := ih
    refine ⟨?_, ?_, ?_⟩
    · intro v hv d
      cases v with
      | null => simp [stringifyV, litNull, jsize]
      | bool b => cases b <;> simp [stringifyV, litTrue, litFalse, jsize]
      | num n =>
        have h1 := natChars_length_pos n.natAbs
        show jsize (JsonVal.num n) ≤ (intChars n).length
        unfold intChars
        split <;> simp [jsize] <;> omega
      | str s => simp [stringifyV, jsize]
      | arr xs =>
        cases xs with
        | nil => simp [stringifyV, jsize, lsize]
        | cons x xs' =>
          have hsz : jsize (JsonVal.arr (x :: xs')) = 1 + lsize (x :: xs') := by simp [jsize]
          have hE := ihE (x :: xs') (by simp) (by omega) d
          show jsize (JsonVal.arr (x :: xs')) ≤
            ('[' :: '\n' :: stringifyElems d (x :: xs') ++ '\n' :: pad d ++ [']']).length
          simp only [List.length_cons, List.length_append]
          omega
      | obj kvs =>
        cases kvs with
        | nil => simp [stringifyV, jsize, msize]
        | cons kv ms =>
          obtain ⟨k, v0⟩ := kv
          have hsz : jsize (JsonVal.obj ((k, v0) :: ms)) = 1 + msize ((k, v0) :: ms) := by simp [jsize]
          have hM := ihM ((k, v0) :: ms) (by simp) (by omega) d
          show jsize (JsonVal.obj ((k, v0) :: ms)) ≤
            ('{' :: '\n' :: stringifyMembers d ((k, v0) :: ms) ++ '\n' :: pad d ++ ['}']).length
          simp only [List.length_cons, List.length_append]
          omega
    · intro xs hne hs d
      cases xs with
      | nil => exact absurd rfl hne
      | cons x xs' =>
        have hjx := jsize_pos x
        have hls : lsize (x :: xs') = 1 + jsize x + lsize xs' := by simp [lsize]
        cases xs' with
        | nil =>
          have hlsn : lsize ([] : List JsonVal) = 1 := by simp [lsize]
          have hV := ihV x (by omega) (d+1)
          show lsize [x] ≤ (pad (d+1) ++ stringifyV (d+1) x).length + 1
          simp only [List.length_append, pad, List.length_replicate]
          omega
        | cons y ys =>
          have hlsY : lsize (x :: y :: ys) = 1 + jsize x + lsize (y :: ys) := by simp [lsize]
          have hV := ihV x (by omega) (d+1)
          have hE := ihE (y :: ys) (by simp) (by omega) d
          show lsize (x :: y :: ys) ≤
            (pad (d+1) ++ stringifyV (d+1) x ++ ',' :: '\n' :: stringifyElems d (y :: ys)).length + 1
          simp only [List.length_append, List.length_cons, pad, List.length_replicate]
          omega
    · intro kvs hne hs d
      cases kvs with
      | nil => exact absurd rfl hne
      | cons kv ms =>
        obtain ⟨k, v0⟩ := kv
        have hjv := jsize_pos v0
        have hms : msize ((k, v0) :: ms) = 1 + jsize v0 + msize ms := by simp [msize]
        cases ms with
        | nil =>
          have hm0 : msize ([] : List (List Char × JsonVal)) = 1 := by simp [msize]
          have hV := ihV v0 (by omega) (d+1)
          show msize [(k, v0)] ≤
            (pad (d+1) ++ '"' :: escape k ++ '"' :: ':' :: ' ' :: stringifyV (d+1) v0).length + 1
          simp only [List.length_append, List.length_cons, pad, List.length_replicate]
          omega
        | cons m ms' =>
          have hmsM : msize ((k, v0) :: m :: ms') = 1 + jsize v0 + msize (m :: ms') := by simp [msize]
          have hV := ihV v0 (by omega) (d+1)
          have hM := ihM (m :: ms') (by simp) (by omega) d
          show msize ((k, v0) :: m :: ms') ≤
            (pad (d+1) ++ '"' :: escape k ++ '"' :: ':' :: ' ' :: stringifyV (d+1) v0 ++
              ',' :: '\n' :: stringifyMembers d (m :: ms')).length + 1
          simp only [List.length_append, List.length_cons, pad, List.length_replicate]
          omega

theorem roundTrip_parseVal (v : JsonVal) (fuel d : Nat) (r : List Char)
    (hfuel : jsize v ≤ fuel) (hr : headDigit r = false) :
    parseVal fuel (stringifyV d v ++ r) = some (v, r) :=
  (roundTripAux (jsize v)).1 v le_rfl fuel d r hfuel hr

theorem parseJson_stringifyV (v : JsonVal) : parseJson (stringifyV 0 v) = some v := by
  have hsz : jsize v ≤ (stringifyV 0 v).length := (sizeLenAux (jsize v)).1 v le_rfl 0
  have h := roundTrip_parseVal v ((stringifyV 0 v).length + 1) 0 [] (by omega) rfl
  unfold parseJson
  rw [List.append_nil] at h
  rw [h]
  simp

theorem intercalate_amp_eq (ps : List (List Char)) :
    List.intercalate ['&'] ps = joinedPairs ps := by
  induction ps with
  | nil => simp [joinedPairs, List.intercalate]
  | cons p t ih =>
    cases t with
    | nil => simp [joinedPairs, List.intercalate, List.intersperse]
    | cons q t' =>
      rw [intercalate_cons2, joinedPairs]
      rw [ih]
      simp

theorem nonl_joinedPairs (ps : List (List Char)) (h : ∀ p ∈ ps, '\n' ∉ p) :
    '\n' ∉ joinedPairs ps := by
  induction ps with
  | nil => simp [joinedPairs]
  | cons p t ih =>
    cases t with
    | nil => simpa [joinedPairs] using h p (List.mem_cons_self p [])
    | cons q t' =>
      rw [joinedPairs]
      simp only [List.mem_append, List.mem_cons, not_or]
      refine ⟨h p (List.mem_cons_self p _), by decide, ?_⟩
      exact ih fun x hx => h x (List.mem_cons_of_mem p hx)

theorem nonl_queryString (q : Option (List (List Char × List Char))) (h : queryNlFree q) :
    '\n' ∉ _queryString q := by
  cases q with
  | none =>
    rw [show _queryString none = [] from rfl]
    exact List.not_mem_nil '\n'
  | some query =>
    by_cases hq : query.length = 0
    · rw [show _queryString (some query) = [] from by unfold _queryString; simp only []; rw [if_pos hq]]
      exact List.not_mem_nil '\n'
    · rw [show _queryString (some query) =
          '?' :: List.intercalate ['&'] (query.map fun kv => kv.1 ++ '=' :: kv.2) from by
        unfold _queryString; simp only []; rw [if_neg hq]]
      intro hmem
      rcases List.mem_cons.mp hmem with h1 | h1
      · exact absurd h1 (by decide)
      · rw [intercalate_amp_eq] at h1
        refine absurd h1 (nonl_joinedPairs _ ?_)
        intro p hp
        rcases List.mem_map.mp hp with ⟨kv, hkv, rfl⟩
        obtain ⟨ha, hb⟩ := h kv hkv
        intro hpm
        rcases List.mem_append.mp hpm with h2 | h2
        · exact ha h2
        · rcases List.mem_cons.mp h2 with h3 | h3
          · exact absurd h3 (by decide)
          · exact hb h3

theorem requestSeg_none : requestSeg none = .ok [] := rfl

theorem showJSON_json (j : JsonVal) :
    _showJSON (Value.json j) = .ok ( _indent (stringifyV 0 j)) := rfl

theorem showJSON_selfRef : _showJSON Value.selfRef = .error SerializationError.cyclicValue := rfl

theorem requestSeg_some_ok (rc : Value) (req : List Char)
    (h : requestSeg (some rc) = .ok req) :
    ∃ j, rc = Value.json j ∧ req = lblRequestJSON ++ _indent (stringifyV 0 j) ++ ['\n'] := by
  cases rc with
  | json j =>
    refine ⟨j, rfl, ?_⟩
    simp only [requestSeg, showJSON_json] at h
    exact (Except.ok.injEq .. ▸ h).symm
  | selfRef =>
    exfalso
    simp [requestSeg, showJSON_selfRef] at h

theorem showRequestResult_ok (rr : RequestResult) (out : List Char)
    (h : showRequestResult rr = .ok out) :
    ∃ req hs js, requestSeg rr.requestContent = .ok req ∧
      _showJSON rr.responseHeaders = .ok hs ∧
      _showJSON rr.responseContent = .ok js ∧
      out = headerChars rr ++ '\n' ::
        (req ++ (lblRespHeaders ++ hs ++ '\n' ::
          (lblRespJSON ++ js ++ '\n' ::
            (lblRespOpen ++ natChars rr.statusCode ++ lblLatency ++
              natChars rr.timeTaken ++ ['m', 's', '\n'])))) := by
  unfold showRequestResult at h
  cases hreq : requestSeg rr.requestContent with
  | error e => rw [hreq] at h; exact absurd h (by simp)
  | ok req =>
    rw [hreq] at h
    cases hhs : _showJSON rr.responseHeaders with
    | error e => rw [hhs] at h; exact absurd h (by simp)
    | ok hs =>
      rw [hhs] at h
      cases hjs : _showJSON rr.responseContent with
      | error e => rw [hjs] at h; exact absurd h (by simp)
      | ok js =>
        rw [hjs] at h
        simp only [Except.ok.injEq] at h
        exact ⟨req, hs, js, rfl, rfl, rfl, h.symm⟩

theorem beginsWith_reqLine_spaces (c : Char) (t : List Char) (hc : okAfterNl c = true) :
    beginsWith lblReqLine (' ' :: ' ' :: c :: t) = false := by
  simp only [okAfterNl, Bool.or_eq_true, decide_eq_true_eq] at hc
  rcases hc with (rfl | rfl) | rfl <;> simp +decide [lblReqLine, beginsWith]

theorem beginsWith_reqLine_fauna (m : List Char) :
    beginsWith lblReqLine (lblFauna ++ m) = false := by
  simp [lblFauna, lblReqLine, beginsWith]

theorem beginsWith_reqLine_reqJSON (x : List Char) :
    beginsWith lblReqLine (lblRequestJSON ++ x) = true := by
  simp [lblRequestJSON, lblReqLine, beginsWith]

theorem beginsWith_reqLine_respHeaders (x : List Char) :
    beginsWith lblReqLine (lblRespHeaders ++ x) = false := by
  simp [lblRespHeaders, lblReqLine, beginsWith]

theorem beginsWith_reqLine_respJSON (x : List Char) :
    beginsWith lblReqLine (lblRespJSON ++ x) = false := by
  simp [lblRespJSON, lblReqLine, beginsWith]

theorem beginsWith_reqLine_respOpen (x : List Char) :
    beginsWith lblReqLine (lblRespOpen ++ x) = false := by
  simp [lblRespOpen, lblReqLine, beginsWith]

theorem beginsWith_reqLine_nil : beginsWith lblReqLine [] = false := rfl

theorem showJSON_ok (rc : Value) (s : List Char) (h : _showJSON rc = .ok s) :
    ∃ j, rc = Value.json j ∧ s = _indent (stringifyV 0 j) := by
  cases rc with
  | json j =>
    refine ⟨j, rfl, ?_⟩
    rw [showJSON_json] at h
    exact (Except.ok.injEq .. ▸ h).symm
  | selfRef =>
    exfalso
    rw [showJSON_selfRef] at h
    exact absurd h (by simp)

theorem nonl_headerChars (rr : RequestResult) (hm : '\n' ∉ rr.method) (hp : '\n' ∉ rr.path)
    (hq : queryNlFree rr.query) : '\n' ∉ headerChars rr := by
  unfold headerChars
  intro hmem
  rcases List.mem_append.mp hmem with h1 | h1
  · rcases List.mem_append.mp h1 with h2 | h2
    · exact absurd h2 (by decide)
    · exact hm h2
  · rcases List.mem_cons.mp h1 with h2 | h2
    · exact absurd h2 (by decide)
    · rcases List.mem_cons.mp h2 with h3 | h3
      · exact absurd h3 (by decide)
      · rcases List.mem_append.mp h3 with h4 | h4
        · exact hp h4
        · exact nonl_queryString rr.query hq h4

theorem nonl_statusText (sc tt : Nat) :
    '\n' ∉ lblRespOpen ++ natChars sc ++ lblLatency ++ natChars tt ++ ['m', 's'] := by
  intro hmem
  rcases List.mem_append.mp hmem with h1 | h1
  · rcases List.mem_append.mp h1 with h2 | h2
    · rcases List.mem_append.mp h2 with h3 | h3
      · rcases List.mem_append.mp h3 with h4 | h4
        · exact absurd h4 (by decide)
        · exact nonl_natChars sc h4
      · exact absurd h3 (by decide)
    · exact nonl_natChars tt h2
  · exact absurd h1 (by decide)

theorem countP_single (p : List Char → Bool) (x : List Char) :
    List.countP p [x] = if p x then 1 else 0 := by
  rw [List.countP_cons, List.countP_nil]
  simp

theorem countP_json_block (lbl : List Char) (hlbl : '\n' ∉ lbl) (j : JsonVal) (b : Bool)
    (hb : ∀ x, beginsWith lblReqLine (lbl ++ x) = b) :
    List.countP (fun l => beginsWith lblReqLine l)
      (splitLines (lbl ++ _indent (stringifyV 0 j))) = if b then 1 else 0 := by
  rw [_indent_eq_indentCh]
  match h0t : splitLines (stringifyV 0 j) with
  | [] => exact absurd h0t (splitLines_ne_nil _)
  | h0 :: t0 =>
    have hlines := splitLines_indentCh _ h0 t0 h0t
    rw [splitLines_append_left_nonl lbl _ hlbl _ _ hlines]
    rw [List.countP_cons, List.countP_map]
    have hzero : List.countP ((fun l => beginsWith lblReqLine l) ∘ fun x => ' ' :: ' ' :: x) t0 = 0 := by
      apply List.countP_eq_zero.mpr
      intro x hx
      obtain ⟨c, t, rfl, hok⟩ := nlOk_tail_lines _ (nlOk_stringifyV j 0) x (by
        rw [h0t]
        simpa using hx)
      simp only [Function.comp_apply]
      rw [beginsWith_reqLine_spaces c t hok]
      simp
    rw [hzero, hb h0]
    cases b <;> simp

theorem indentCh_nonl (s : List Char) (h : '\n' ∉ s) : indentCh s = s := by
  induction s with
  | nil => rfl
  | cons c cs ih =>
    simp only [List.mem_cons, not_or] at h
    simp only [indentCh, if_neg (Ne.symm h.1), ih h.2]

theorem indentCh_append_nl (a b : List Char) :
    indentCh (a ++ '\n' :: b) = indentCh a ++ '\n' :: ' ' :: ' ' :: indentCh b := by
  induction a with
  | nil => simp [indentCh]
  | cons c cs ih =>
    by_cases hc : c = '\n'
    · subst hc
      simp only [List.cons_append, List.append_eq, indentCh, eq_self_iff_true, if_true]
      rw [ih]
    · simp only [List.cons_append, List.append_eq, indentCh, if_neg hc]
      rw [ih]

theorem leadSpaces_two (x : List Char) : leadSpaces (' ' :: ' ' :: x) = leadSpaces x + 2 := by
  simp only [leadSpaces, eq_self_iff_true, if_true]

theorem splitLines_tail3 (H Jc statusT : List Char) (hstat : '\n' ∉ statusT) :
    splitLines ((lblRespHeaders ++ H) ++ '\n' ::
      ((lblRespJSON ++ Jc) ++ '\n' :: (statusT ++ '\n' :: []))) =
    splitLines (lblRespHeaders ++ H) ++
      (splitLines (lblRespJSON ++ Jc) ++ ([statusT] ++ [[]])) := by
  rw [splitLines_append_nl, splitLines_append_nl, splitLines_append_nl,
    splitLines_nonl statusT hstat]
  rfl

theorem countP_tail3 (jh jc : JsonVal) (sc tt : Nat) :
    List.countP (fun l => beginsWith lblReqLine l)
      (splitLines ((lblRespHeaders ++ _indent (stringifyV 0 jh)) ++ '\n' ::
        ((lblRespJSON ++ _indent (stringifyV 0 jc)) ++ '\n' ::
          ((lblRespOpen ++ natChars sc ++ lblLatency ++ natChars tt ++ ['m', 's']) ++ '\n' :: [])))) = 0 := by
  rw [splitLines_tail3 _ _ _ (nonl_statusText sc tt)]
  rw [List.countP_append, List.countP_append, List.countP_append]
  rw [countP_json_block lblRespHeaders (by decide) jh false beginsWith_reqLine_respHeaders]
  rw [countP_json_block lblRespJSON (by decide) jc false beginsWith_reqLine_respJSON]
  rw [countP_single, countP_single, beginsWith_reqLine_nil]
  have hstat : beginsWith lblReqLine
      (lblRespOpen ++ natChars sc ++ lblLatency ++ natChars tt ++ ['m', 's']) = false := by
    have h := beginsWith_reqLine_respOpen (natChars sc ++ lblLatency ++ natChars tt ++ ['m', 's'])
    simpa [List.append_assoc] using h
  rw [hstat]
  simp

/-- C1: for every record, the rendered output begins with a header line made
of the literal label "Fauna ", the record's method, a space, a slash, the
record's path, the (possibly empty) query-string suffix, and a newline,
before any other output. -/
theorem header_line_first (rr : RequestResult) (out : List Char)
    (h : showRequestResult rr = .ok out) :
    ∃ rest, out = lblFauna ++ (rr.method ++ (' ' :: '/' ::
      (rr.path ++ (_queryString rr.query ++ ('\n' :: rest))))) := by
  obtain ⟨req, hs, js, _, _, _, hout⟩ := showRequestResult_ok rr out h
  refine ⟨req ++ (lblRespHeaders ++ hs ++ '\n' ::
    (lblRespJSON ++ js ++ '\n' ::
      (lblRespOpen ++ natChars rr.statusCode ++ lblLatency ++
        natChars rr.timeTaken ++ ['m', 's', '\n']))), ?_⟩
  rw [hout]
  unfold headerChars
  simp [List.append_assoc]

/-- Witness for C1 at the concrete record `rrDemo`. -/
theorem header_line_first_witness :
    ∃ out, showRequestResult rrDemo = Except.ok out ∧
      ∃ rest, out = lblFauna ++ (rrDemo.method ++ (' ' :: '/' ::
        (rrDemo.path ++ (_queryString rrDemo.query ++ ('\n' :: rest))))) :=
  ⟨_, rfl, header_line_first rrDemo _ rfl⟩

/-- C2: the query-string suffix is empty for an absent or empty mapping, and
otherwise is a question mark followed by the verbatim key=value pairs in
iteration order, joined by ampersands. -/
theorem queryString_spec :
    _queryString none = [] ∧ _queryString (some []) = [] ∧
    ∀ q, q ≠ [] →
      _queryString (some q) = '?' :: joinedPairs (q.map fun kv => kv.1 ++ '=' :: kv.2) := by
  refine ⟨rfl, rfl, fun q hq => ?_⟩
  have hlen : ¬q.length = 0 := fun hl => hq (List.length_eq_zero.mp hl)
  rw [show _queryString (some q) =
      '?' :: List.intercalate ['&'] (q.map fun kv => kv.1 ++ '=' :: kv.2) from by
    unfold _queryString; simp only []; rw [if_neg hlen]]
  rw [intercalate_amp_eq]

/-- Witness for C2 at a concrete two-entry mapping. -/
theorem queryString_spec_witness :
    _queryString (some [(['s'], ['1', '0']), (['t'], ['2'])]) =
      '?' :: joinedPairs ([(['s'], ['1', '0']), (['t'], ['2'])].map fun kv => kv.1 ++ '=' :: kv.2) :=
  queryString_spec.2.2 [(['s'], ['1', '0']), (['t'], ['2'])] (by decide)

/-- C3 counterexample: a record with absent `requestContent` whose query value
contains a newline followed by the label text; the rendered output then does
contain a line beginning with the two-space-indented "Request JSON:" label,
because query values are inserted verbatim. -/
theorem reqJSONLine_claim_cex :
    rrInj.requestContent = none ∧ hasReqJSONLine (showRequestResult rrInj) = true :=
  ⟨rfl, by decide⟩

/-- C3 (amended): for records whose method, path and query entries contain no
newline character, the output of a successful rendering contains no line
beginning with the "  Request JSON:" label when `requestContent` is absent,
and exactly one such line (the emitted Request JSON line, whose payload is the
indented serialization) when it is present and serializable. -/
theorem reqJSONLine_count (rr : RequestResult) (hm : '\n' ∉ rr.method)
    (hp : '\n' ∉ rr.path) (hq : queryNlFree rr.query) (out : List Char)
    (h : showRequestResult rr = .ok out) :
    (rr.requestContent = none →
      List.countP (fun l => beginsWith lblReqLine l) (splitLines out) = 0) ∧
    (∀ j, rr.requestContent = some (Value.json j) →
      List.countP (fun l => beginsWith lblReqLine l) (splitLines out) = 1 ∧
      ∃ rest, out = headerChars rr ++ '\n' ::
        (lblRequestJSON ++ _indent (stringifyV 0 j) ++ '\n' :: rest)) := by
  obtain ⟨req, hs, js, hreq, hhs, hjs, hout⟩ := showRequestResult_ok rr out h
  obtain ⟨jh, hjheq, rfl⟩ := showJSON_ok _ _ hhs
  obtain ⟨jc, hjceq, rfl⟩ := showJSON_ok _ _ hjs
  have hout2 : out = headerChars rr ++ '\n' :: (req ++
      ((lblRespHeaders ++ _indent (stringifyV 0 jh)) ++ '\n' ::
        ((lblRespJSON ++ _indent (stringifyV 0 jc)) ++ '\n' ::
          ((lblRespOpen ++ natChars rr.statusCode ++ lblLatency ++
            natChars rr.timeTaken ++ ['m', 's']) ++ '\n' :: [])))) := by
    rw [hout]
    simp [List.append_assoc]
  constructor
  · intro hnone
    rw [hnone] at hreq
    rw [requestSeg_none] at hreq
    have hreqnil : req = [] := by
      injection hreq with h1
      exact h1.symm
    rw [hreqnil] at hout2
    rw [hout2, splitLines_append_nl,
      splitLines_nonl _ (nonl_headerChars rr hm hp hq), List.nil_append,
      List.countP_append, countP_single,
      show beginsWith lblReqLine (headerChars rr) = false from beginsWith_reqLine_fauna _,
      countP_tail3 jh jc rr.statusCode rr.timeTaken]
    simp
  · intro j hj
    rw [hj] at hreq
    obtain ⟨j', hj'eq, hreqform⟩ := requestSeg_some_ok _ _ hreq
    have hjj : j' = j := by
      injection hj'eq.symm with h1
    subst hjj
    have hout3 : out = headerChars rr ++ '\n' ::
        ((lblRequestJSON ++ _indent (stringifyV 0 j')) ++ '\n' ::
          ((lblRespHeaders ++ _indent (stringifyV 0 jh)) ++ '\n' ::
            ((lblRespJSON ++ _indent (stringifyV 0 jc)) ++ '\n' ::
              ((lblRespOpen ++ natChars rr.statusCode ++ lblLatency ++
                natChars rr.timeTaken ++ ['m', 's']) ++ '\n' :: [])))) := by
      rw [hout2, hreqform]
      simp [List.append_assoc]
    constructor
    · rw [hout3, splitLines_append_nl,
        splitLines_nonl _ (nonl_headerChars rr hm hp hq),
        splitLines_append_nl (lblRequestJSON ++ _indent (stringifyV 0 j')),
        List.countP_append, List.countP_append, countP_single,
        show beginsWith lblReqLine (headerChars rr) = false from beginsWith_reqLine_fauna _,
        countP_json_block lblRequestJSON (by decide) j' true beginsWith_reqLine_reqJSON,
        countP_tail3 jh jc rr.statusCode rr.timeTaken]
      simp
    · refine ⟨lblRespHeaders ++ _indent (stringifyV 0 jh) ++ '\n' ::
        (lblRespJSON ++ _indent (stringifyV 0 jc) ++ '\n' ::
          (lblRespOpen ++ natChars rr.statusCode ++ lblLatency ++
            natChars rr.timeTaken ++ ['m', 's', '\n'])), ?_⟩
      rw [hout, hreqform]
      simp [List.append_assoc]

/-- Witness for the amended C3 at the concrete record `rrDemo` (request body
present): exactly one Request JSON line. -/
theorem reqJSONLine_count_witness :
    ∃ out, showRequestResult rrDemo = Except.ok out ∧
      List.countP (fun l => beginsWith lblReqLine l) (splitLines out) = 1 :=
  ⟨_, rfl, ((reqJSONLine_count rrDemo (by decide) (by decide) trivial _ rfl).2
    jDemoVal rfl).1⟩

/-- C4: every successful rendering consists of the header line, the optional
Request JSON segment, and then, in order, the Response headers line, the
Response JSON line, and the status line; the output ends exactly with
"  Response (" ++ statusCode ++ "): Network latency " ++ timeTaken ++ "ms"
and a final newline. -/
theorem response_tail_structure (rr : RequestResult) (out : List Char)
    (h : showRequestResult rr = .ok out) :
    ∃ req hs js, _showJSON rr.responseHeaders = .ok hs ∧
      _showJSON rr.responseContent = .ok js ∧
      (rr.requestContent = none → req = []) ∧
      out = headerChars rr ++ '\n' :: (req ++
        (lblRespHeaders ++ hs ++ '\n' ::
          (lblRespJSON ++ js ++ '\n' ::
            (lblRespOpen ++ natChars rr.statusCode ++ lblLatency ++
              natChars rr.timeTaken ++ ['m', 's', '\n'])))) := by
  obtain ⟨req, hs, js, hreq, hhs, hjs, hout⟩ := showRequestResult_ok rr out h
  refine ⟨req, hs, js, hhs, hjs, fun hnone => ?_, hout⟩
  rw [hnone, requestSeg_none] at hreq
  injection hreq with h1
  exact h1.symm

/-- Witness for C4 at the concrete record `rrDemo`. -/
theorem response_tail_structure_witness :
    ∃ out, showRequestResult rrDemo = Except.ok out ∧
      ∃ req hs js, _showJSON rrDemo.responseHeaders = .ok hs ∧
        _showJSON rrDemo.responseContent = .ok js ∧
        (rrDemo.requestContent = none → req = []) ∧
        out = headerChars rrDemo ++ '\n' :: (req ++
          (lblRespHeaders ++ hs ++ '\n' ::
            (lblRespJSON ++ js ++ '\n' ::
              (lblRespOpen ++ natChars rrDemo.statusCode ++ lblLatency ++
                natChars rrDemo.timeTaken ++ ['m', 's', '\n'])))) :=
  ⟨_, rfl, response_tail_structure rrDemo _ rfl⟩

/-- C5: the indent helper maps the lines of its input to the lines of its
output one for one: the first line is unchanged and every other line gains
exactly the two-space indent, hence at least two more leading spaces. -/
theorem indent_lines_shift (s l : List Char) (ls : List (List Char))
    (hsp : splitLines s = l :: ls) :
    splitLines ( _indent s) = l :: ls.map (fun x => ' ' :: ' ' :: x) ∧
    ∀ x ∈ ls, leadSpaces (' ' :: ' ' :: x) = leadSpaces x + 2 := by
  rw [_indent_eq_indentCh]
  exact ⟨splitLines_indentCh s l ls hsp, fun x _ => leadSpaces_two x⟩

/-- Witness for C5 at the concrete string "a\nb". -/
theorem indent_lines_shift_witness :
    splitLines ( _indent ['a', '\n', 'b']) = ['a'] :: [['b']].map (fun x => ' ' :: ' ' :: x) ∧
    ∀ x ∈ [['b']], leadSpaces (' ' :: ' ' :: x) = leadSpaces x + 2 :=
  indent_lines_shift ['a', '\n', 'b'] ['a'] [['b']] (by decide)

/-- C6 counterexample: on a record whose request body is self-referential the
sink is never invoked (the call trace is empty), so the observer does not
invoke the sink exactly once for every record. -/
theorem sink_once_cex :
    sinkCalls rrCyc = [] ∧
    showRequestResult rrCyc = .error SerializationError.cyclicValue :=
  ⟨rfl, rfl⟩

/-- C6 (amended): for every sink and every record whose rendering succeeds,
the observer returned by `logger` invokes the sink exactly once, with the full
rendered string, and returns the sink's (void) result. -/
theorem sink_once (rr : RequestResult) (out : List Char)
    (h : showRequestResult rr = .ok out) :
    sinkCalls rr = [out] ∧
    ∀ {α : Type} (sink : List Char → α), logger sink rr = .ok (sink out) := by
  constructor
  · unfold sinkCalls
    rw [h]
  · intro α sink
    unfold logger
    rw [h]

/-- Witness for the amended C6 at the concrete record `rrDemo`. -/
theorem sink_once_witness :
    ∃ out, showRequestResult rrDemo = Except.ok out ∧ sinkCalls rrDemo = [out] :=
  ⟨_, rfl, (sink_once rrDemo _ rfl).1⟩

/-- C7: when rendering fails, the error propagates out of the observer
unchanged and the sink is never invoked: the call trace is empty and the
observer returns the error for every sink. -/
theorem render_error_no_sink (rr : RequestResult) (e : SerializationError)
    (h : showRequestResult rr = .error e) :
    sinkCalls rr = [] ∧
    ∀ {α : Type} (sink : List Char → α), logger sink rr = .error e := by
  constructor
  · unfold sinkCalls
    rw [h]
  · intro α sink
    unfold logger
    rw [h]

/-- Witness for C7 at the self-referential record `rrCyc`. -/
theorem render_error_no_sink_witness :
    showRequestResult rrCyc = Except.error SerializationError.cyclicValue ∧
    sinkCalls rrCyc = [] ∧
    logger (fun _ => (0 : Nat)) rrCyc = Except.error SerializationError.cyclicValue :=
  ⟨rfl, (render_error_no_sink rrCyc _ rfl).1, (render_error_no_sink rrCyc _ rfl).2 _⟩

/-- C8: the formatter is deterministic: equal records render to equal results
(and equal sink traces).  Freedom from side effects holds by construction of
the embedding: `showRequestResult` threads no state besides its argument. -/
theorem render_deterministic (rr1 rr2 : RequestResult) (h : rr1 = rr2) :
    showRequestResult rr1 = showRequestResult rr2 ∧ sinkCalls rr1 = sinkCalls rr2 := by
  subst h
  exact ⟨rfl, rfl⟩

/-- Witness for C8 at the concrete record `rrDemo`. -/
theorem render_deterministic_witness :
    showRequestResult rrDemo = showRequestResult rrDemo ∧
    sinkCalls rrDemo = sinkCalls rrDemo :=
  render_deterministic rrDemo rrDemo rfl

/-- C9: for a present, serializable request body, the output contains the
Request JSON block whose payload is the indented serialization; removing the
indentation recovers the serialization exactly, and parsing it back yields a
value deep-equal to the original request body. -/
theorem request_json_roundtrip (rr : RequestResult) (j : JsonVal) (out : List Char)
    (hrc : rr.requestContent = some (Value.json j))
    (h : showRequestResult rr = .ok out) :
    ∃ rest, out = headerChars rr ++ '\n' ::
        (lblRequestJSON ++ _indent (stringifyV 0 j) ++ '\n' :: rest) ∧
      unindentChars ( _indent (stringifyV 0 j)) = stringifyV 0 j ∧
      parseJson (stringifyV 0 j) = some j := by
  obtain ⟨req, hs, js, hreq, hhs, hjs, hout⟩ := showRequestResult_ok rr out h
  rw [hrc] at hreq
  obtain ⟨j', hj'eq, hreqform⟩ := requestSeg_some_ok _ _ hreq
  have hjj : j' = j := by injection hj'eq.symm with h1
  subst hjj
  refine ⟨lblRespHeaders ++ hs ++ '\n' ::
      (lblRespJSON ++ js ++ '\n' ::
        (lblRespOpen ++ natChars rr.statusCode ++ lblLatency ++
          natChars rr.timeTaken ++ ['m', 's', '\n'])), ?_, unindent_indent _, parseJson_stringifyV j'⟩
  rw [hout, hreqform]
  simp [List.append_assoc]

/-- Witness for C9 at the concrete record `rrDemo`, whose body is the spec's
scenario value. -/
theorem request_json_roundtrip_witness :
    ∃ out, showRequestResult rrDemo = Except.ok out ∧
      ∃ rest, out = headerChars rrDemo ++ '\n' ::
          (lblRequestJSON ++ _indent (stringifyV 0 jDemoVal) ++ '\n' :: rest) ∧
        unindentChars ( _indent (stringifyV 0 jDemoVal)) = stringifyV 0 jDemoVal ∧
        parseJson (stringifyV 0 jDemoVal) = some jDemoVal :=
  ⟨_, rfl, request_json_roundtrip rrDemo jDemoVal _ rfl rfl⟩

/-- C10: the indent helper is the identity on newline-free strings and
distributes over newline concatenation, inserting the two-space indent after
the newline. -/
theorem indent_algebra (s a b : List Char) :
    ('\n' ∉ s → _indent s = s) ∧
    _indent (a ++ '\n' :: b) = _indent a ++ '\n' :: ' ' :: ' ' :: _indent b := by
  constructor
  · intro hs
    rw [_indent_eq_indentCh, indentCh_nonl s hs]
  · rw [_indent_eq_indentCh, _indent_eq_indentCh, _indent_eq_indentCh, indentCh_append_nl]

/-- Witness for C10 at concrete strings. -/
theorem indent_algebra_witness :
    _indent ['a'] = ['a'] ∧
    _indent (['x'] ++ '\n' :: ['y']) = _indent ['x'] ++ '\n' :: ' ' :: ' ' :: _indent ['y'] :=
  ⟨(indent_algebra ['a'] ['x'] ['y']).1 (by decide), (indent_algebra ['a'] ['x'] ['y']).2⟩
